import Mathlib

/-!
# Raft registry core: AppendEntries handler, leader retry driver and role loops

A shallow embedding of `gomh/registry/raft/append_entries.go` and of the role
loops of `gomh/registry/raft/server.go`.

Conventions of the embedding:

* `uint64` fields (terms, indices) are natural numbers; the only arithmetic the
  program performs on them is `currentTerm += 1`, which is embedded with its
  wrap-around modulo `2 ^ 64`.
* `int` counters and `int64` millisecond timestamps are integers.  The counters
  are bounded by the number of peers and the timestamps are clock readings, so
  no wrap-around is embedded for their sums and differences.  The product
  `heartbeatInterval * 2` of the follower loop is embedded with its `int64`
  wrap-around.
* A run-time panic (index or slice bound out of range, nil dereference) is the
  result `none`.
* The mutexes, the timers, the `stopped` channel and the printed diagnostics are
  not part of the embedding; one function call is one critical section.
* The clock `util.GetTimestampInMilli()` and the answers of remote peers are
  inputs of the functions that consult them.
-/

namespace Raft

/-! ## Data model -/

/-- Wire-level log entry `pb.LogEntry`. -/
structure PbLogEntry where
  Index : Nat
  Term : Nat
  Commandname : String
  Command : List UInt8
deriving DecidableEq, Repr

/-- In-memory log entry `LogEntry`, built in the source as `LogEntry{Entry: entry}`. -/
structure LogEntry where
  Entry : PbLogEntry
deriving DecidableEq, Repr

/-- Modelled from the spec: the `Log` type, whose declaration (log.go) is not
among the sources.  The handler reads and assigns the field `entries`
directly; the spec adds a `commit_index: u64`. -/
structure Log where
  entries : List LogEntry
  commitIndex : Nat
deriving DecidableEq, Repr

namespace Log

/-- Modelled from the spec: `Log.LastLogInfo` (log.go is not among the
sources).  "`last_log_info() → (index, term)` — returns `(0,0)` when empty";
otherwise the index and term of the last entry. -/
def LastLogInfo (l : Log) : Nat × Nat :=
  match l.entries.getLast? with
  | none => (0, 0)
  | some e => (e.Entry.Index, e.Entry.Term)

/-- Modelled from the spec: `Log.AppendEntry` (log.go is not among the
sources).  "`append(entry)` — place `entry` at the tail; its index must equal
`last_index + 1`.  Flush to durable storage before returning success."  An
entry whose index is `last_index + 1` is placed at the tail and the operation
succeeds; for any other entry the operation does not succeed (`none`) and
places nothing.  The flush does not change the in-memory log. -/
def AppendEntry (l : Log) (e : LogEntry) : Option Log :=
  if e.Entry.Index = l.LastLogInfo.1 + 1 then
    some { l with entries := l.entries ++ [e] }
  else none

/-- Modelled from the spec: `Log.RefreshLog` (log.go is not among the
sources).  The flush that follows a truncation ("truncate strictly after it,
and flush"); it rewrites the log file and leaves the in-memory log as it is. -/
def RefreshLog (l : Log) : Log := l

/-- Modelled from the spec: `Log.CommitIndex` (log.go is not among the
sources).  "`commit_index() → u64`". -/
def CommitIndex (l : Log) : Nat := l.commitIndex

/-- Modelled from the spec: `Log.UpdateCommitIndex` (log.go is not among the
sources).  "`update_commit_index(new_ci)` — sets
`commit_index = max(commit_index, min(new_ci, last_index))`.  Never
decreases." -/
def UpdateCommitIndex (l : Log) (newCi : Nat) : Log :=
  { l with commitIndex := max l.commitIndex (min newCi l.LastLogInfo.1) }

end Log

/-- Modelled from the spec: the state-name constants `Stopped`, `Initiated`,
`Follower`, `Candidate`, `Leader` held by `server.state` (their declaration is
not among the sources).  "`role ∈ {Stopped, Initiated, Follower, Candidate,
Leader}`"; five distinct names. -/
inductive StateName where
  | Stopped
  | Initiated
  | Follower
  | Candidate
  | Leader
deriving DecidableEq, Repr

/-- Modelled from the spec: the vote-request states of a peer (peer.go is not
among the sources).  "`vote_state ∈ {None, Requested, Granted, Denied}`". -/
inductive VoteRequestState where
  | VoteNone
  | VoteRequested
  | VoteGranted
  | VoteDenied
deriving DecidableEq, Repr

/-- Modelled from the spec: the `Peer` type (peer.go is not among the sources).
The source reads `Name` and `Host` and calls `SetVoteRequestState`. -/
structure Peer where
  Name : String
  Host : String
  voteRequestState : VoteRequestState
deriving DecidableEq, Repr

/-- Modelled from the spec: `Peer.SetVoteRequestState` (peer.go is not among
the sources); records the vote state of the peer. -/
def Peer.SetVoteRequestState (p : Peer) (v : VoteRequestState) : Peer :=
  { p with voteRequestState := v }

/-- Modelled from the spec: the `Config` type (its declaration is not among the
sources).  "`{candidate_name, host, peer_hosts: [string], log_prefix}`". -/
structure Config where
  CandidateName : String
  Host : String
  PeerHosts : List String
  LogPrefix : String
deriving DecidableEq, Repr

/-- The fields of `server` (server.go, lines 19-43) that the embedded functions
read or write.  `peers` is the map `map[string]*Peer` as a list of key/value
pairs. -/
structure server where
  name : String
  state : StateName
  currentLeader : String
  currentTerm : Nat
  log : Log
  conf : Config
  peers : List (String × Peer)
  voteGrantedNum : Int
  votedForTerm : Nat
  leaderAcceptTime : Int
  heartbeatInterval : Int
  appendEntryRespCnt : Int
deriving DecidableEq, Repr

/-- Message `pb.AppendEntriesReuqest` (the spelling is the source's). -/
structure AppendEntriesReuqest where
  Term : Nat
  PreLogIndex : Nat
  PreLogTerm : Nat
  CommitIndex : Nat
  LeaderName : String
  Entries : List PbLogEntry
deriving DecidableEq, Repr

/-- Message `pb.AppendEntriesResponse`. -/
structure AppendEntriesResponse where
  Term : Nat
  Success : Bool
  Index : Nat
deriving DecidableEq, Repr

/-- Modelled from the spec: message `pb.RequestVoteResponse` (the proto package
is not among the sources).  "Response: `{term: u64, vote_granted: bool}`". -/
structure RequestVoteResponse where
  Term : Nat
  VoteGranted : Bool
deriving DecidableEq, Repr

/-! ## server.go: small methods -/

/-- `server.SetState` (server.go, lines 136-141). -/
def server.SetState (s : server) (state : StateName) : server :=
  { s with state := state }

/-- `server.IncrAppendEntryResp` (server.go, lines 74-76). -/
def server.IncrAppendEntryResp (s : server) : server :=
  { s with appendEntryRespCnt := s.appendEntryRespCnt + 1 }

/-- `server.QuorumSize` (server.go, lines 78-80): `len(s.peers)/2 + 1`. -/
def server.QuorumSize (s : server) : Int :=
  (s.peers.length : Int) / 2 + 1

/-- `server.CanCommitLog` (server.go, lines 82-87). -/
def server.CanCommitLog (s : server) : Bool :=
  decide (s.appendEntryRespCnt ≥ s.QuorumSize)

/-- `server.VoteGrantedNum` (server.go, lines 118-123). -/
def server.VoteGrantedNum (s : server) : Int := s.voteGrantedNum

/-- `server.IncrVoteGrantedNum` (server.go, lines 125-130). -/
def server.IncrVoteGrantedNum (s : server) : server :=
  { s with voteGrantedNum := s.voteGrantedNum + 1 }

/-- `server.IncrTermForvote` (server.go, lines 132-134): `s.currentTerm += 1`
on a `uint64`. -/
def server.IncrTermForvote (s : server) : server :=
  { s with currentTerm := (s.currentTerm + 1) % 2 ^ 64 }

/-- `server.VoteForSelf` (server.go, lines 143-149).  The map lookup
`s.peers[s.conf.Host]` of a missing key yields a nil peer, whose update
panics: `none`. -/
def server.VoteForSelf (s : server) : Option server :=
  if s.peers.any (fun kp => kp.1 == s.conf.Host) then
    some { s with
      voteGrantedNum := 1
      peers := s.peers.map (fun kp =>
        if kp.1 = s.conf.Host then
          (kp.1, kp.2.SetVoteRequestState VoteRequestState.VoteGranted)
        else kp) }
  else none

/-- Modelled from the spec: `server.FlushState` (its definition is not among
the sources); it persists the server state and leaves it as it is. -/
def server.FlushState (s : server) : server := s

/-! ## append_entries.go: the handler -/

/-- The loop of lines 37-42, entered with `backindex = dflt` and `n` indices
`n-1, ..., 0` still to visit: the result is the final value of `backindex`,
the first visited `i` with `entries[i].Entry.Index <= pre`, or `dflt` when the
loop runs to its end.  An index out of range is `none`. -/
def scanBack (entries : List LogEntry) (pre : Nat) (dflt : Int) : Nat → Option Int
  | 0 => some dflt
  | i + 1 =>
    match entries[i]? with
    | none => none
    | some e =>
      if e.Entry.Index ≤ pre then some (i : Int) else scanBack entries pre dflt i

/-- The loops of lines 46-48 and 55-57: every request entry is wrapped and
handed to `AppendEntry`, in request order.  The loop discards the result of
`AppendEntry`: after an append that did not succeed it goes on with the log as
it is. -/
def appendAll (l : Log) (entries : List PbLogEntry) : Log :=
  entries.foldl (fun acc entry => (acc.AppendEntry { Entry := entry }).getD acc) l

/-- Lines 36-53 of `AppendEntriesImp.AppendEntries`: the branch
`req.GetPreLogIndex() < lindex`. -/
def divergentTail (s : server) (req : AppendEntriesReuqest)
    (pb : AppendEntriesResponse) : Option (server × AppendEntriesResponse) :=
  match scanBack s.log.entries req.PreLogIndex ((s.log.entries.length : Int) - 1)
      s.log.entries.length with
  | none => none
  | some backindex =>
    -- entries[0 : backindex+1]
    if backindex + 1 < 0 ∨ (s.log.entries.length : Int) < backindex + 1 then none
    else
      let log1 : Log :=
        Log.RefreshLog { s.log with entries := s.log.entries.take (backindex + 1).toNat }
      -- entries[backindex]
      if backindex < 0 then none
      else
        match log1.entries[backindex.toNat]? with
        | none => none
        | some tail =>
          if tail.Entry.Index = req.PreLogIndex then
            some ({ s with log := appendAll log1 req.Entries }, { pb with Success := true })
          else
            some ({ s with log := log1 },
                  { pb with Index := tail.Entry.Index, Success := false })

/-- Lines 25-28 of `AppendEntriesImp.AppendEntries`: the server becomes a
follower of the sender, `now` being the reading of
`util.GetTimestampInMilli()`. -/
def adopted (s : server) (now : Int) (req : AppendEntriesReuqest) : server :=
  { s.SetState StateName.Follower with
    currentTerm := req.Term
    currentLeader := req.LeaderName
    leaderAcceptTime := now }

/-- Lines 24-60 of `AppendEntriesImp.AppendEntries`: the body of
`if req.GetTerm() >= e.server.currentTerm`. -/
def adoptLeader (s : server) (now : Int) (req : AppendEntriesReuqest)
    (pb : AppendEntriesResponse) : Option (server × AppendEntriesResponse) :=
  let s1 : server := adopted s now req
  let lindex := s1.log.LastLogInfo.1
  if req.PreLogIndex > lindex then
    some (s1, { pb with Success := false, Index := lindex })
  else if req.PreLogIndex < lindex then
    divergentTail s1 req pb
  else if req.PreLogIndex = lindex then
    some ({ s1 with log := appendAll s1.log req.Entries }, { pb with Success := true })
  else
    some (s1, pb)

/-- Lines 62-70 of `AppendEntriesImp.AppendEntries`: the commit-index update
on success and the final `Index`/`Term` of the reply. -/
def finishReply (req : AppendEntriesReuqest) (r : server × AppendEntriesResponse) :
    server × AppendEntriesResponse :=
  let s2 : server :=
    if r.2.Success then { r.1 with log := r.1.log.UpdateCommitIndex req.CommitIndex }
    else r.1
  (s2, { r.2 with Index := s2.log.LastLogInfo.1, Term := s2.log.LastLogInfo.2 })

/-- `AppendEntriesImp.AppendEntries` (append_entries.go, lines 17-71) on the
server `s`, with `now` the clock reading taken when the leader is adopted.
The result is the server after the call and the reply; `none` is a panic. -/
def AppendEntries (s : server) (now : Int) (req : AppendEntriesReuqest) :
    Option (server × AppendEntriesResponse) :=
  let pb : AppendEntriesResponse := { Term := 0, Success := false, Index := 0 }
  let r : Option (server × AppendEntriesResponse) :=
    if req.Term ≥ s.currentTerm then adoptLeader s now req pb else some (s, pb)
  r.map (finishReply req)

/-- The log indices are contiguous from 1: the entry at position `i` has index
`i + 1`. -/
def contiguous (entries : List LogEntry) : Prop :=
  entries.map (fun e => e.Entry.Index) = List.range' 1 entries.length

instance (entries : List LogEntry) : Decidable (contiguous entries) := by
  unfold contiguous; infer_instance

/-- The request entries carry the indices `k + 1, k + 2, ...` in request order:
appended in that order to a log whose last index is `k`, each of them meets the
requirement of `Log.AppendEntry` (index `= last_index + 1`). -/
def sequentialFrom (k : Nat) (entries : List PbLogEntry) : Prop :=
  entries.map (fun e => e.Index) = List.range' (k + 1) entries.length

instance (k : Nat) (entries : List PbLogEntry) : Decidable (sequentialFrom k entries) := by
  unfold sequentialFrom; infer_instance

/-! ## Concrete states and requests used in the examples -/

/-- A log entry with the given index and term and an empty command. -/
def entryAt (index term : Nat) : LogEntry :=
  { Entry := { Index := index, Term := term, Commandname := "", Command := [] } }

/-- A follower `f:1` of a three-node cluster with the given term, log and
commit index. -/
def followerWith (term : Nat) (entries : List LogEntry) (commit : Nat) : server :=
  { name := "f", state := StateName.Follower, currentLeader := "", currentTerm := term,
    log := { entries := entries, commitIndex := commit },
    conf := { CandidateName := "f", Host := "f:1", PeerHosts := ["f:1", "g:1", "l:1"],
              LogPrefix := "raft-" },
    peers := [("f:1", ⟨"f:1", "f:1", VoteRequestState.VoteNone⟩),
              ("g:1", ⟨"g:1", "g:1", VoteRequestState.VoteNone⟩),
              ("l:1", ⟨"l:1", "l:1", VoteRequestState.VoteNone⟩)],
    voteGrantedNum := 0, votedForTerm := 0, leaderAcceptTime := 0,
    heartbeatInterval := 1000, appendEntryRespCnt := 0 }

/-- A request of leader `l:1`. -/
def requestOf (term preLogIndex preLogTerm commit : Nat) (entries : List PbLogEntry) :
    AppendEntriesReuqest :=
  { Term := term, PreLogIndex := preLogIndex, PreLogTerm := preLogTerm,
    CommitIndex := commit, LeaderName := "l:1", Entries := entries }



/-- The server `s` with its log replaced by `l`. -/
def withLog (s : server) (l : Log) : server := { s with log := l }

/-- The log `l` cut to its first `k` entries. -/
def cutLog (l : Log) (k : Nat) : Log := { l with entries := l.entries.take k }

/-! ## append_entries.go: the leader's client -/

/-- The transport to one peer as one call of `RequestAppendEntriesCli` sees it:
whether `grpc.Dial` succeeds, and the outcome of the first and of the second
`client.AppendEntries` call (`none` is an RPC error). -/
structure Link where
  dial : Bool
  first : AppendEntriesReuqest → Option AppendEntriesResponse
  second : AppendEntriesReuqest → Option AppendEntriesResponse

/-- Lines 87-94 of `RequestAppendEntriesCli`: the first request. -/
def firstRequest (s : server) (entries : List PbLogEntry) (lindex lterm : Nat) :
    AppendEntriesReuqest :=
  { Term := s.currentTerm
    PreLogIndex := lindex
    PreLogTerm := lterm
    CommitIndex := s.log.CommitIndex
    LeaderName := s.conf.Host
    Entries := entries }

/-- Lines 107-113 of `RequestAppendEntriesCli`: the loop that collects the
entries of the retry, skipping every local entry with
`Index <= res.Index`. -/
def retryEntries (s : server) (res : AppendEntriesResponse) : List PbLogEntry :=
  s.log.entries.foldl
    (fun el e => if e.Entry.Index ≤ res.Index then el else el ++ [e.Entry]) []

/-- Lines 114-121 of `RequestAppendEntriesCli`: the retry request built from the
unsuccessful reply `res`. -/
def retryRequest (s : server) (res : AppendEntriesResponse) : AppendEntriesReuqest :=
  { Term := s.currentTerm
    PreLogIndex := res.Index
    PreLogTerm := res.Term
    CommitIndex := s.log.CommitIndex
    LeaderName := s.conf.Host
    Entries := retryEntries s res }

/-- `RequestAppendEntriesCli` (append_entries.go, lines 73-137): the leader `s`
sends `entries` to the peer behind `link` and counts its acknowledgement,
retrying once on an unsuccessful reply. -/
def RequestAppendEntriesCli (s : server) (link : Link) (entries : List PbLogEntry)
    (lindex lterm : Nat) : server :=
  if s.state ≠ StateName.Leader then s
  else if link.dial = false then s
  else
    match link.first (firstRequest s entries lindex lterm) with
    | none => s
    | some res =>
      if res.Success then s.IncrAppendEntryResp
      else
        match link.second (retryRequest s res) with
        | none => s
        | some res2 => if res2.Success then s.IncrAppendEntryResp else s

/-- The link to a reachable follower in state `f`: the first call runs the
follower's handler at clock `now1`, the second call runs it at `now2` on the
state the first call, of request `req1`, has left.  A panic of the handler is
an RPC error. -/
def followerLink (f : server) (now1 now2 : Int) (req1 : AppendEntriesReuqest) : Link :=
  { dial := true
    first := fun req => (AppendEntries f now1 req).map (fun r => r.2)
    second := fun req =>
      ((AppendEntries f now1 req1).bind (fun r => AppendEntries r.1 now2 req)).map
        (fun r => r.2) }

/-- Modelled from the spec: `Peer.RequestAppendEntries` (peer.go is not among
the sources).  "`request_append_entries(entries, prev_log_index,
prev_log_term)` — see §4.4": the peer drives `RequestAppendEntriesCli` of its
server over the link to its host. -/
def Peer.RequestAppendEntries (s : server) (link : Link) (entries : List PbLogEntry)
    (lindex lterm : Nat) : server :=
  RequestAppendEntriesCli s link entries lindex lterm

/-- Modelled from the spec: `Peer.RequestVoteMe` (peer.go is not among the
sources).  "`request_vote_me(last_index, last_term)` — drive one `RequestVote`
RPC and, on success, set vote_state and increment the Server's
`vote_granted_num` if `vote_granted == true`."  `answer` is the outcome of the
RPC to the peer stored under `key` (`none` is an RPC error). -/
def Peer.RequestVoteMe (s : server) (key : String) (answer : Option RequestVoteResponse) :
    server :=
  match answer with
  | none => s
  | some res =>
    let s1 : server :=
      { s with peers := s.peers.map (fun kp =>
          if kp.1 = key then
            (kp.1, kp.2.SetVoteRequestState
              (if res.VoteGranted then VoteRequestState.VoteGranted
               else VoteRequestState.VoteDenied))
          else kp) }
    if res.VoteGranted then s1.IncrVoteGrantedNum else s1

/-! ## server.go: one timer tick of each role loop -/

/-- The `case <-t.C` branch of `server.candidateLoop` (server.go, lines
292-309): one election round.  `answers` gives the outcome of the `RequestVote`
RPC to the peer stored under each key.  The map `s.peers` is visited in list
order. -/
def candidateTick (s : server) (answers : String → Option RequestVoteResponse) :
    Option server :=
  if s.state ≠ StateName.Candidate then some s
  else
    let s1 : server := { s with currentTerm := (s.currentTerm + 1) % 2 ^ 64 }
    match s1.VoteForSelf with
    | none => none
    | some s2 =>
      let s3 : server :=
        s2.peers.foldl
          (fun acc kp =>
            if acc.conf.Host = kp.2.Host then acc
            else Peer.RequestVoteMe acc kp.1 (answers kp.1))
          s2
      if s3.VoteGrantedNum ≥ s3.QuorumSize then some (s3.SetState StateName.Leader)
      else some s3

/-- The value of an `int64` expression whose mathematical value is `x`:
two's-complement wrap-around into `[-2^63, 2^63)`. -/
def wrapInt64 (x : Int) : Int := (x + 2 ^ 63) % 2 ^ 64 - 2 ^ 63

/-- The `case <-t.C` branch of `server.followerLoop` (server.go, lines
324-334), `now` being the reading of `util.GetTimestampInMilli()`.  The
product `s.heartbeatInterval*2` is an `int64` product. -/
def followerTick (s : server) (now : Int) : server :=
  if s.state ≠ StateName.Follower then s
  else if now - s.leaderAcceptTime > wrapInt64 (s.heartbeatInterval * 2) then
    s.IncrTermForvote.SetState StateName.Candidate
  else s.FlushState

/-- Lines 378-384 of `server.leaderLoop`: the heartbeat round, an empty
`AppendEntries` to every peer whose host is not the local one.  `net` gives the
link to each host. -/
def heartbeatRound (s : server) (net : String → Link) : server :=
  s.peers.foldl
    (fun acc kp =>
      if acc.conf.Host = kp.2.Host then acc
      else Peer.RequestAppendEntries acc (net kp.2.Host) [] 0 0)
    { s with appendEntryRespCnt := 1 }

/-- The `case <-t.C` branch of the heartbeat loop of `server.leaderLoop`
(server.go, lines 373-391), `now` being the reading of
`util.GetTimestampInMilli()`. -/
def leaderTick (s : server) (now : Int) (net : String → Link) : server :=
  if s.state ≠ StateName.Leader then s
  else if now - s.leaderAcceptTime > s.heartbeatInterval then
    let s1 := heartbeatRound s net
    if s1.CanCommitLog = false then s1.SetState StateName.Candidate else s1
  else s

/-- One step of a server: the `AppendEntries` handler on a request, or one
timer tick of the follower, candidate or leader loop. -/
inductive Step where
  | appendEntries (now : Int) (req : AppendEntriesReuqest)
  | followerTimer (now : Int)
  | candidateTimer (answers : String → Option RequestVoteResponse)
  | leaderHeartbeat (now : Int) (net : String → Link)

/-- The server after one step; `none` is a panic. -/
def step (s : server) : Step → Option server
  | Step.appendEntries now req => (AppendEntries s now req).map (fun r => r.1)
  | Step.followerTimer now => some (followerTick s now)
  | Step.candidateTimer answers => candidateTick s answers
  | Step.leaderHeartbeat now net => some (leaderTick s now net)

/-- The step executes `currentTerm += 1`: the tick of a follower whose leader
is overdue (`IncrTermForvote`, server.go line 329) or the tick of a candidate
(line 296).  The handler and the leader heartbeat never do. -/
def bumpsTerm (s : server) : Step → Bool
  | Step.appendEntries _ _ => false
  | Step.followerTimer now =>
    decide (s.state = StateName.Follower ∧
      now - s.leaderAcceptTime > wrapInt64 (s.heartbeatInterval * 2))
  | Step.candidateTimer _ => decide (s.state = StateName.Candidate)
  | Step.leaderHeartbeat _ _ => false

/-! ## Vocabulary of the election and heartbeat statements -/

/-- The peer answered the vote request and granted its vote. -/
def granted (answer : Option RequestVoteResponse) : Bool :=
  match answer with
  | none => false
  | some res => res.VoteGranted

/-- Number of peers other than the local node that grant their vote. -/
def grantCount (s : server) (answers : String → Option RequestVoteResponse) : Nat :=
  (s.peers.filter (fun kp => decide (s.conf.Host ≠ kp.2.Host) && granted (answers kp.1))).length

/-- The peer behind `link` acknowledges the request `req` of leader `s`: the
dial succeeds and either the first reply is successful, or it is unsuccessful
and the reply to the retry is successful. -/
def acknowledges (s : server) (link : Link) (req : AppendEntriesReuqest) : Bool :=
  link.dial &&
    match link.first req with
    | none => false
    | some res =>
      res.Success ||
        match link.second (retryRequest s res) with
        | none => false
        | some res2 => res2.Success

/-- Number of peers other than the local node that acknowledge the heartbeat. -/
def ackCount (s : server) (net : String → Link) : Nat :=
  (s.peers.filter (fun kp => decide (s.conf.Host ≠ kp.2.Host) &&
    acknowledges s (net kp.2.Host) (firstRequest s [] 0 0))).length

/-- Every `AppendEntries` RPC over the link fails (the dial or the call) or is
unsuccessful. -/
def silent (link : Link) : Prop :=
  link.dial = true →
    ∀ req res, (link.first req = some res ∨ link.second req = some res) → res.Success = false

/-- The local node has an entry for itself in its peers map. -/
def selfRegistered (s : server) : Prop :=
  ∃ p, (s.conf.Host, p) ∈ s.peers

instance (s : server) : Decidable (selfRegistered s) :=
  decidable_of_iff (s.peers.any (fun kp => kp.1 == s.conf.Host) = true) (by
    unfold selfRegistered
    simp only [List.any_eq_true, beq_iff_eq, Prod.exists]
    constructor
    · rintro ⟨k, p, hmem, hk⟩
      exact ⟨p, hk ▸ hmem⟩
    · rintro ⟨p, hmem⟩
      exact ⟨_, p, hmem, rfl⟩)

/-- A link over which nothing gets through. -/
def deadLink : Link :=
  { dial := false, first := fun _ => none, second := fun _ => none }

/-- A leader `l:1` of the three-node cluster. -/
def leaderWith (term : Nat) (entries : List LogEntry) (commit : Nat) : server :=
  { followerWith term entries commit with
    name := "l", state := StateName.Leader
    conf := { CandidateName := "l", Host := "l:1", PeerHosts := ["f:1", "g:1", "l:1"],
              LogPrefix := "raft-" } }

/-- A single-node cluster `h:1` in the candidate state. -/
def loneCandidate (term : Nat) : server :=
  { name := "h", state := StateName.Candidate, currentLeader := "", currentTerm := term,
    log := { entries := [], commitIndex := 0 },
    conf := { CandidateName := "h", Host := "h:1", PeerHosts := ["h:1"], LogPrefix := "raft-" },
    peers := [("h:1", ⟨"h:1", "h:1", VoteRequestState.VoteNone⟩)],
    voteGrantedNum := 0, votedForTerm := 0, leaderAcceptTime := 0,
    heartbeatInterval := 1000, appendEntryRespCnt := 0 }

/-- The positions `i` at which the loop of lines 37-42 evaluates
`e.server.log.entries[i]`, in the order of the reads, when `n` indices
`n-1, ..., 0` are still to visit: the loop reads position `n-1` and goes on
below it unless that entry has `Index <= pre` (the `break`). -/
def scanReads (entries : List LogEntry) (pre : Nat) : Nat → List Nat
  | 0 => []
  | i + 1 =>
    i :: match entries[i]? with
      | none => []
      | some e => if e.Entry.Index ≤ pre then [] else scanReads entries pre i

/-! ## Lemmas on the log operations and on the handler -/

theorem LastLogInfo_concat (l : Log) (e : LogEntry) :
    ({ l with entries := l.entries ++ [e] } : Log).LastLogInfo =
      (e.Entry.Index, e.Entry.Term) := by
  simp [Log.LastLogInfo]

theorem appendAll_cons (l : Log) (e : PbLogEntry) (es : List PbLogEntry) :
    appendAll l (e :: es) = appendAll ((l.AppendEntry { Entry := e }).getD l) es := rfl

theorem AppendEntry_getD_commitIndex (l : Log) (e : LogEntry) :
    ((l.AppendEntry e).getD l).commitIndex = l.commitIndex := by
  unfold Log.AppendEntry
  split <;> rfl

theorem appendAll_commitIndex (l : Log) (es : List PbLogEntry) :
    (appendAll l es).commitIndex = l.commitIndex := by
  induction es generalizing l with
  | nil => rfl
  | cons e es ih => rw [appendAll_cons, ih, AppendEntry_getD_commitIndex]

/-- Request entries that meet the requirement of `AppendEntry` one after the
other are all placed at the tail, in request order. -/
theorem appendAll_entries (l : Log) (es : List PbLogEntry)
    (hseq : sequentialFrom l.LastLogInfo.1 es) :
    (appendAll l es).entries = l.entries ++ es.map (fun e => ({ Entry := e } : LogEntry)) := by
  induction es generalizing l with
  | nil => simp [appendAll]
  | cons e es ih =>
    unfold sequentialFrom at hseq
    simp only [List.map_cons, List.length_cons, List.range'_succ, List.cons.injEq] at hseq
    obtain ⟨hidx, hrest⟩ := hseq
    have hacc : l.AppendEntry { Entry := e } =
        some { l with entries := l.entries ++ [{ Entry := e }] } := by
      unfold Log.AppendEntry
      rw [if_pos hidx]
    have hlast : ({ l with entries := l.entries ++ [{ Entry := e }] } : Log).LastLogInfo.1 =
        l.LastLogInfo.1 + 1 := by
      rw [LastLogInfo_concat]; exact hidx
    rw [appendAll_cons, hacc, Option.getD_some, ih]
    · simp
    · unfold sequentialFrom
      rw [hlast]; exact hrest

/-- What the backward scan returns when it starts inside the log. -/
theorem scanBack_spec (entries : List LogEntry) (pre : Nat) (dflt : Int) (n : Nat)
    (hn : n ≤ entries.length) :
    (scanBack entries pre dflt n = some dflt ∧
        ∀ j e, j < n → entries[j]? = some e → pre < e.Entry.Index) ∨
    (∃ i e, i < n ∧ entries[i]? = some e ∧ e.Entry.Index ≤ pre ∧
        scanBack entries pre dflt n = some (i : Int) ∧
        ∀ j e2, i < j → j < n → entries[j]? = some e2 → pre < e2.Entry.Index) := by
  induction n with
  | zero => left; simp [scanBack]
  | succ k ih =>
    have hk : k < entries.length := by omega
    have hget : entries[k]? = some (entries.get ⟨k, hk⟩) := by simp
    by_cases hle : (entries.get ⟨k, hk⟩).Entry.Index ≤ pre
    · right
      refine ⟨k, entries.get ⟨k, hk⟩, by omega, hget, hle, ?_, ?_⟩
      · rw [scanBack, hget]; simp only []; rw [if_pos hle]
      · intro j e2 h1 h2; omega
    · have hstep : scanBack entries pre dflt (k + 1) = scanBack entries pre dflt k := by
        rw [scanBack, hget]; simp only []; rw [if_neg hle]
      rcases ih (by omega) with ⟨h1, h2⟩ | ⟨i, e, hi, hie, hle2, hs, hall⟩
      · left
        refine ⟨by rw [hstep, h1], ?_⟩
        intro j e hj hje
        rcases Nat.lt_succ_iff_lt_or_eq.mp hj with hlt | heq
        · exact h2 j e hlt hje
        · subst heq
          rw [hget] at hje
          cases hje
          omega
      · right
        refine ⟨i, e, by omega, hie, hle2, by rw [hstep, hs], ?_⟩
        intro j e2 hij hj hje
        rcases Nat.lt_succ_iff_lt_or_eq.mp hj with hlt | heq
        · exact hall j e2 hij hlt hje
        · subst heq
          rw [hget] at hje
          cases hje
          omega

/-- The divergent-tail branch on a non-empty log never panics: it cuts the log
after position `b`, the last position whose index is at most `PreLogIndex`
(or the last position of the log when there is none). -/
theorem divergentTail_spec (s : server) (req : AppendEntriesReuqest)
    (pb : AppendEntriesResponse) (hne : s.log.entries ≠ []) :
    ∃ (b : Nat) (tail : LogEntry), b < s.log.entries.length ∧
      s.log.entries[b]? = some tail ∧
      ((b + 1 = s.log.entries.length ∧
          ∀ (j : Nat) (e : LogEntry), s.log.entries[j]? = some e →
            req.PreLogIndex < e.Entry.Index) ∨
       (tail.Entry.Index ≤ req.PreLogIndex ∧
          ∀ (j : Nat) (e : LogEntry), b < j → s.log.entries[j]? = some e →
            req.PreLogIndex < e.Entry.Index)) ∧
      divergentTail s req pb =
        if tail.Entry.Index = req.PreLogIndex then
          some ({ s with log := (appendAll
                    { s.log with entries := s.log.entries.take (b + 1) } req.Entries) },
                { pb with Success := true })
        else
          some ({ s with log := { s.log with entries := s.log.entries.take (b + 1) } },
                { pb with Index := tail.Entry.Index, Success := false }) := by
  have hlen : 0 < s.log.entries.length := List.length_pos.mpr hne
  have key : ∀ (b : Nat) (tail : LogEntry), b < s.log.entries.length →
      s.log.entries[b]? = some tail →
      scanBack s.log.entries req.PreLogIndex ((s.log.entries.length : Int) - 1)
        s.log.entries.length = some (b : Int) →
      divergentTail s req pb =
        if tail.Entry.Index = req.PreLogIndex then
          some ({ s with log := (appendAll
                    { s.log with entries := s.log.entries.take (b + 1) } req.Entries) },
                { pb with Success := true })
        else
          some ({ s with log := { s.log with entries := s.log.entries.take (b + 1) } },
                { pb with Index := tail.Entry.Index, Success := false }) := by
    intro b tail hb htail hscan
    have h1 : ¬ ((b : Int) + 1 < 0 ∨ (s.log.entries.length : Int) < (b : Int) + 1) := by omega
    have h2 : ¬ ((b : Int) < 0) := by omega
    have h3 : ((b : Int) + 1).toNat = b + 1 := by omega
    have h4 : (s.log.entries.take (b + 1))[b]? = some tail := by
      rw [List.getElem?_take_of_lt (by omega)]; exact htail
    unfold divergentTail
    rw [hscan]
    simp only [h1, h2, h3, if_false, Log.RefreshLog, Int.toNat_ofNat, h4]
  rcases scanBack_spec s.log.entries req.PreLogIndex ((s.log.entries.length : Int) - 1)
      s.log.entries.length (le_refl _) with ⟨h1, h2⟩ | ⟨i, e, hi, hie, hle, hs, hall⟩
  · have hb : s.log.entries.length - 1 < s.log.entries.length := by omega
    have hcast : ((s.log.entries.length : Int) - 1) = ((s.log.entries.length - 1 : Nat) : Int) := by
      omega
    refine ⟨s.log.entries.length - 1, s.log.entries.get ⟨_, hb⟩, hb, by simp, Or.inl ⟨by omega, ?_⟩, ?_⟩
    · intro j e hje
      have hj : j < s.log.entries.length := by
        by_contra hcon
        rw [List.getElem?_eq_none (by omega)] at hje
        cases hje
      exact h2 j e hj hje
    · exact key _ _ hb (by simp) (by rw [h1, hcast])
  · refine ⟨i, e, hi, hie, Or.inr ⟨hle, ?_⟩, key i e hi hie hs⟩
    intro j e2 hij hje
    have hj : j < s.log.entries.length := by
      by_contra hcon
      rw [List.getElem?_eq_none (by omega)] at hje
      cases hje
    exact hall j e2 hij hj hje

theorem LastLogInfo_nil (l : Log) (h : l.entries = []) : l.LastLogInfo = (0, 0) := by
  simp [Log.LastLogInfo, h]

theorem entries_ne_nil_of_lastIndex_pos (l : Log) (h : 0 < l.LastLogInfo.1) :
    l.entries ≠ [] := by
  intro hnil
  rw [LastLogInfo_nil l hnil] at h
  exact absurd h (by decide)

theorem adopted_log (s : server) (now : Int) (req : AppendEntriesReuqest) :
    (adopted s now req).log = s.log := rfl

/-- Stale request: nothing happens and the reply describes the last log entry. -/
theorem AppendEntries_stale (s : server) (now : Int) (req : AppendEntriesReuqest)
    (h : req.Term < s.currentTerm) :
    AppendEntries s now req =
      some (s, { Term := s.log.LastLogInfo.2, Success := false, Index := s.log.LastLogInfo.1 }) := by
  have h1 : ¬ (req.Term ≥ s.currentTerm) := by omega
  simp [AppendEntries, h1, finishReply]

/-- Follower behind the leader: the leader is adopted, the log is untouched. -/
theorem AppendEntries_behind (s : server) (now : Int) (req : AppendEntriesReuqest)
    (hterm : s.currentTerm ≤ req.Term) (h : s.log.LastLogInfo.1 < req.PreLogIndex) :
    AppendEntries s now req =
      some (adopted s now req,
        { Term := s.log.LastLogInfo.2, Success := false, Index := s.log.LastLogInfo.1 }) := by
  simp [AppendEntries, hterm, adoptLeader, adopted_log, h, finishReply]

/-- Follower exactly at `PreLogIndex`: every request entry is handed to the
log's append. -/
theorem AppendEntries_equal (s : server) (now : Int) (req : AppendEntriesReuqest)
    (hterm : s.currentTerm ≤ req.Term) (h : req.PreLogIndex = s.log.LastLogInfo.1) :
    AppendEntries s now req =
      some (withLog (adopted s now req)
              ((appendAll s.log req.Entries).UpdateCommitIndex req.CommitIndex),
        { Term := (appendAll s.log req.Entries).LastLogInfo.2, Success := true,
          Index := (appendAll s.log req.Entries).LastLogInfo.1 }) := by
  simp [AppendEntries, hterm, adoptLeader, adopted_log, h, finishReply, Log.UpdateCommitIndex,
    Log.LastLogInfo, withLog]

/-- Divergent tail: the leader is adopted and the log is cut after position `b`,
the last position whose index is at most `PreLogIndex` (the last position of
the log when there is none).  The request entries are appended when the entry
at `b` has index `PreLogIndex`. -/
theorem AppendEntries_divergent (s : server) (now : Int) (req : AppendEntriesReuqest)
    (hterm : s.currentTerm ≤ req.Term) (h : req.PreLogIndex < s.log.LastLogInfo.1) :
    ∃ (b : Nat) (tail : LogEntry), b < s.log.entries.length ∧
      s.log.entries[b]? = some tail ∧
      ((b + 1 = s.log.entries.length ∧
          ∀ (j : Nat) (e : LogEntry), s.log.entries[j]? = some e →
            req.PreLogIndex < e.Entry.Index) ∨
       (tail.Entry.Index ≤ req.PreLogIndex ∧
          ∀ (j : Nat) (e : LogEntry), b < j → s.log.entries[j]? = some e →
            req.PreLogIndex < e.Entry.Index)) ∧
      (tail.Entry.Index = req.PreLogIndex →
        AppendEntries s now req =
          some (withLog (adopted s now req)
              ((appendAll (cutLog s.log (b + 1)) req.Entries).UpdateCommitIndex req.CommitIndex),
            { Term := (appendAll (cutLog s.log (b + 1)) req.Entries).LastLogInfo.2,
              Success := true,
              Index := (appendAll (cutLog s.log (b + 1)) req.Entries).LastLogInfo.1 })) ∧
      (tail.Entry.Index ≠ req.PreLogIndex →
        AppendEntries s now req =
          some (withLog (adopted s now req) (cutLog s.log (b + 1)),
            { Term := (cutLog s.log (b + 1)).LastLogInfo.2, Success := false,
              Index := (cutLog s.log (b + 1)).LastLogInfo.1 })) := by
  have hne : (adopted s now req).log.entries ≠ [] :=
    entries_ne_nil_of_lastIndex_pos s.log (by omega)
  obtain ⟨b, tail, hb, htail, hdisj, hdiv⟩ :=
    divergentTail_spec (adopted s now req) req { Term := 0, Success := false, Index := 0 } hne
  refine ⟨b, tail, hb, htail, hdisj, ?_, ?_⟩
  all_goals
    intro hidx
    have h1 : ¬ (req.PreLogIndex > s.log.LastLogInfo.1) := by omega
    simp only [AppendEntries, ge_iff_le, hterm, if_true, adoptLeader, adopted_log, h1, if_false, h,
      hdiv, hidx]
    simp [finishReply, withLog, cutLog, Log.UpdateCommitIndex, Log.LastLogInfo, adopted_log]

theorem contiguous_index {entries : List LogEntry} (hc : contiguous entries)
    {i : Nat} {e : LogEntry} (h : entries[i]? = some e) : e.Entry.Index = i + 1 := by
  have hi : i < entries.length := by
    by_contra hcon
    rw [List.getElem?_eq_none (by omega)] at h
    cases h
  have h1 : (entries.map (fun e => e.Entry.Index))[i]? = some e.Entry.Index := by
    rw [List.getElem?_map, h]; rfl
  rw [hc, List.getElem?_range' _ _ hi] at h1
  simp at h1
  omega

theorem LastLogInfo_getElem (l : Log) (e : LogEntry)
    (h : l.entries[l.entries.length - 1]? = some e) :
    l.LastLogInfo = (e.Entry.Index, e.Entry.Term) := by
  have : l.entries.getLast? = some e := by
    rw [List.getLast?_eq_getElem?]; exact h
  simp [Log.LastLogInfo, this]

theorem contiguous_lastIndex (l : Log) (hc : contiguous l.entries) :
    l.LastLogInfo.1 = l.entries.length := by
  by_cases hnil : l.entries = []
  · rw [LastLogInfo_nil l hnil, hnil]; rfl
  · have hlen : 0 < l.entries.length := List.length_pos.mpr hnil
    have hlt : l.entries.length - 1 < l.entries.length := by omega
    have hget : l.entries[l.entries.length - 1]? = some (l.entries.get ⟨_, hlt⟩) := by simp
    rw [LastLogInfo_getElem l _ hget]
    have := contiguous_index hc hget
    simp only [] at this ⊢
    omega

theorem contiguous_take {entries : List LogEntry} (hc : contiguous entries) (k : Nat)
    (hk : k ≤ entries.length) : contiguous (entries.take k) := by
  unfold contiguous at hc ⊢
  rw [List.map_take, hc, List.length_take, Nat.min_eq_left hk]
  apply List.ext_getElem?
  intro i
  by_cases hi : i < k
  · rw [List.getElem?_take_of_lt hi, List.getElem?_range' _ _ (by omega),
      List.getElem?_range' _ _ hi]
  · rw [List.getElem?_eq_none (by simp; omega), List.getElem?_eq_none (by simp; omega)]

theorem cutLog_lastIndex (l : Log) (hc : contiguous l.entries) (k : Nat)
    (hk : k ≤ l.entries.length) : (cutLog l k).LastLogInfo.1 = k := by
  have hct : contiguous (cutLog l k).entries := contiguous_take hc k hk
  rw [contiguous_lastIndex (cutLog l k) hct]
  show (l.entries.take k).length = k
  rw [List.length_take]
  omega

/-- C1 (amended): a request with `req.term < current_term` is answered with
`success = false`, `index` = the follower's last log index and `term` = the
term of the follower's last log entry (0 for an empty log), not the
follower's `current_term`. -/
theorem AppendEntries_stale_reply (s : server) (now : Int) (req : AppendEntriesReuqest)
    (h : req.Term < s.currentTerm) :
    ∃ s1 res, AppendEntries s now req = some (s1, res) ∧ res.Success = false ∧
      res.Term = s.log.LastLogInfo.2 ∧ res.Index = s.log.LastLogInfo.1 :=
  ⟨s, _, AppendEntries_stale s now req h, rfl, rfl, rfl⟩

/-- Witness of C1 (amended): follower at term 5 with log `[(1,1),(2,3)]`,
request of term 4. -/
theorem AppendEntries_stale_reply_witness :
    (4 : Nat) < 5 ∧
    ∃ s1 res, AppendEntries (followerWith 5 [entryAt 1 1, entryAt 2 3] 0) 0
        (requestOf 4 2 3 0 []) = some (s1, res) ∧ res.Success = false ∧
      res.Term = (followerWith 5 [entryAt 1 1, entryAt 2 3] 0).log.LastLogInfo.2 ∧
      res.Index = (followerWith 5 [entryAt 1 1, entryAt 2 3] 0).log.LastLogInfo.1 :=
  ⟨by decide, AppendEntries_stale_reply (followerWith 5 [entryAt 1 1, entryAt 2 3] 0) 0
    (requestOf 4 2 3 0 []) (by decide)⟩

/-- C1 as stated fails: the follower at term 5 with log `[(1,1),(2,3)]` answers
a request of term 4 with `term = 3`, not with its `current_term = 5`. -/
theorem AppendEntries_stale_reply_counterexample :
    (requestOf 4 2 3 0 []).Term < (followerWith 5 [entryAt 1 1, entryAt 2 3] 0).currentTerm ∧
    AppendEntries (followerWith 5 [entryAt 1 1, entryAt 2 3] 0) 0 (requestOf 4 2 3 0 []) =
      some (followerWith 5 [entryAt 1 1, entryAt 2 3] 0,
            { Term := 3, Success := false, Index := 2 }) ∧
    (3 : Nat) ≠ (followerWith 5 [entryAt 1 1, entryAt 2 3] 0).currentTerm := by
  decide

/-- C2 (amended): a request with empty `entries` never appends to or alters the
log: the log after the call is a prefix of the log before it.  It is the same
log when the request is stale, when `prev_log_index` is at least the last log
index, or when no log entry has an index `<= prev_log_index` (the leader's
heartbeat, `prev_log_index = 0`, on a log whose indices start at 1).
Otherwise (`req.term >= current_term`, `prev_log_index` below the last log
index and some entry with index `<= prev_log_index`) the divergent-tail branch
truncates the log after the last entry whose index is `<= prev_log_index`:
the log after the call is the old log up to and including position `b`, where
the entry at `b` has index `<= prev_log_index` and every later entry has a
larger index. -/
theorem AppendEntries_heartbeat_log (s : server) (now : Int) (req : AppendEntriesReuqest)
    (hempty : req.Entries = []) :
    ∃ s1 res, AppendEntries s now req = some (s1, res) ∧
      s1.log.entries <+: s.log.entries ∧
      ((req.Term < s.currentTerm ∨ s.log.LastLogInfo.1 ≤ req.PreLogIndex ∨
          ∀ e ∈ s.log.entries, req.PreLogIndex < e.Entry.Index) →
        s1.log.entries = s.log.entries) ∧
      (s.currentTerm ≤ req.Term → req.PreLogIndex < s.log.LastLogInfo.1 →
        (∃ e ∈ s.log.entries, e.Entry.Index ≤ req.PreLogIndex) →
        ∃ (b : Nat) (tail : LogEntry), s.log.entries[b]? = some tail ∧
          tail.Entry.Index ≤ req.PreLogIndex ∧
          (∀ (j : Nat) (e : LogEntry), b < j → s.log.entries[j]? = some e →
            req.PreLogIndex < e.Entry.Index) ∧
          s1.log.entries = s.log.entries.take (b + 1)) := by
  by_cases hterm : req.Term < s.currentTerm
  · exact ⟨_, _, AppendEntries_stale s now req hterm, List.prefix_refl _, fun _ => rfl,
      fun h => absurd h (by omega)⟩
  have hterm2 : s.currentTerm ≤ req.Term := by omega
  rcases Nat.lt_trichotomy s.log.LastLogInfo.1 req.PreLogIndex with hlt | heq | hgt
  · exact ⟨_, _, AppendEntries_behind s now req hterm2 hlt, List.prefix_refl _, fun _ => rfl,
      fun _ h => absurd h (by omega)⟩
  · refine ⟨_, _, AppendEntries_equal s now req hterm2 heq.symm, ?_, fun _ => ?_,
      fun _ h => absurd h (by omega)⟩ <;>
      simp [withLog, Log.UpdateCommitIndex, appendAll, hempty]
  · obtain ⟨b, tail, hb, htail, hdisj, hyes, hno⟩ :=
      AppendEntries_divergent s now req hterm2 hgt
    have hcut : ∃ s1 res, AppendEntries s now req = some (s1, res) ∧
        s1.log.entries = s.log.entries.take (b + 1) := by
      by_cases hidx : tail.Entry.Index = req.PreLogIndex
      · exact ⟨_, _, hyes hidx, by
          simp [withLog, cutLog, Log.UpdateCommitIndex, appendAll, hempty]⟩
      · exact ⟨_, _, hno hidx, rfl⟩
    obtain ⟨s1, res, heval, hlog⟩ := hcut
    refine ⟨s1, res, heval, ?_, ?_, ?_⟩
    · rw [hlog]; exact List.take_prefix _ _
    · intro hcase
      rw [hlog]
      rcases hcase with h1 | h2 | h3
      · omega
      · omega
      · rcases hdisj with ⟨hfull, _⟩ | ⟨hle, _⟩
        · rw [hfull, List.take_length]
        · have := h3 tail (List.getElem?_mem htail)
          omega
    · intro _ _ hsome
      rcases hdisj with ⟨_, hall⟩ | ⟨hle, hlater⟩
      · exfalso
        obtain ⟨e, hmem, hle⟩ := hsome
        obtain ⟨j, hj⟩ := List.getElem?_of_mem hmem
        have := hall j e hj
        omega
      · exact ⟨b, tail, htail, hle, hlater, hlog⟩

/-- Witness of C2 (amended): on the log `[(1,1),(2,1),(3,1)]` the leader's
heartbeat (`prev_log_index = 0`) leaves the log as it is, and an empty request
with `prev_log_index = 2` cuts it after a position `b` whose entry has index
`<= 2` while every later entry has a larger index. -/
theorem AppendEntries_heartbeat_log_witness :
    (∃ s1 res, AppendEntries (followerWith 1 [entryAt 1 1, entryAt 2 1, entryAt 3 1] 0) 7
        (requestOf 1 0 0 0 []) = some (s1, res) ∧
      s1.log.entries = [entryAt 1 1, entryAt 2 1, entryAt 3 1]) ∧
    (∃ s1 res, AppendEntries (followerWith 1 [entryAt 1 1, entryAt 2 1, entryAt 3 1] 0) 7
        (requestOf 1 2 1 0 []) = some (s1, res) ∧
      ∃ (b : Nat) (tail : LogEntry),
        [entryAt 1 1, entryAt 2 1, entryAt 3 1][b]? = some tail ∧
        tail.Entry.Index ≤ 2 ∧
        (∀ (j : Nat) (e : LogEntry), b < j →
          [entryAt 1 1, entryAt 2 1, entryAt 3 1][j]? = some e → 2 < e.Entry.Index) ∧
        s1.log.entries = [entryAt 1 1, entryAt 2 1, entryAt 3 1].take (b + 1)) :=
  ⟨match AppendEntries_heartbeat_log (followerWith 1 [entryAt 1 1, entryAt 2 1, entryAt 3 1] 0)
      7 (requestOf 1 0 0 0 []) rfl with
    | ⟨s1, res, h, _, himp, _⟩ => ⟨s1, res, h, himp (Or.inr (Or.inr (by decide)))⟩,
   match AppendEntries_heartbeat_log (followerWith 1 [entryAt 1 1, entryAt 2 1, entryAt 3 1] 0)
      7 (requestOf 1 2 1 0 []) rfl with
    | ⟨s1, res, h, _, _, hcut⟩ =>
      ⟨s1, res, h, hcut (by decide) (by decide) ⟨entryAt 1 1, by decide, by decide⟩⟩⟩

/-- C2 as stated fails: an empty request of the current term with
`prev_log_index = 2` makes the follower with log `[(1,1),(2,1),(3,1)]` drop
its third entry. -/
theorem AppendEntries_heartbeat_log_counterexample :
    (requestOf 1 2 1 0 []).Entries = [] ∧
    (AppendEntries (followerWith 1 [entryAt 1 1, entryAt 2 1, entryAt 3 1] 0) 7
        (requestOf 1 2 1 0 [])).map (fun r => r.1.log.entries) =
      some [entryAt 1 1, entryAt 2 1] ∧
    [entryAt 1 1, entryAt 2 1] ≠
      (followerWith 1 [entryAt 1 1, entryAt 2 1, entryAt 3 1] 0).log.entries := by
  decide

/-- C3 (amended): the follower with log `[(1,1),(2,1),(3,2)]` and
`current_term <= req.term`, on `AppendEntries(prev_log_index = 3,
prev_log_term = 1, entries = [(4,1)])`, finds `prev_log_index` equal to its
last index, appends the entry, so that its log is
`[(1,1),(2,1),(3,2),(4,1)]`, and replies `success = true` with `index = 4` and
`term = 1`.  The handler never reads `prev_log_term`, so the statement holds
for every value of it, 1 included. -/
theorem AppendEntries_reconciliation (s : server) (now : Int) (req : AppendEntriesReuqest)
    (e4 : PbLogEntry)
    (hlog : s.log.entries.map (fun e => (e.Entry.Index, e.Entry.Term)) = [(1, 1), (2, 1), (3, 2)])
    (hterm : s.currentTerm ≤ req.Term) (hpre : req.PreLogIndex = 3)
    (hent : req.Entries = [e4]) (h4 : e4.Index = 4 ∧ e4.Term = 1) :
    ∃ s1 res, AppendEntries s now req = some (s1, res) ∧
      s1.log.entries = s.log.entries ++ [{ Entry := e4 }] ∧
      s1.log.entries.map (fun e => (e.Entry.Index, e.Entry.Term)) =
        [(1, 1), (2, 1), (3, 2), (4, 1)] ∧
      res.Success = true ∧ res.Index = 4 ∧ res.Term = 1 := by
  have hlast : s.log.LastLogInfo.1 = 3 := by
    have h1 : (s.log.entries.map (fun e => (e.Entry.Index, e.Entry.Term))).getLast? =
        some (3, 2) := by rw [hlog]; rfl
    rw [List.getLast?_map] at h1
    unfold Log.LastLogInfo
    cases hg : s.log.entries.getLast? with
    | none => rw [hg] at h1; cases h1
    | some e =>
      rw [hg] at h1
      simp only [Option.map_some', Option.some.injEq, Prod.mk.injEq] at h1
      exact h1.1
  have hseq : sequentialFrom s.log.LastLogInfo.1 req.Entries := by
    unfold sequentialFrom
    rw [hent, hlast]
    simp [h4.1, List.range']
  have hE := appendAll_entries s.log req.Entries hseq
  rw [hent] at hE
  refine ⟨_, _, AppendEntries_equal s now req hterm (by omega), ?_, ?_, rfl, ?_, ?_⟩
  · simp [withLog, Log.UpdateCommitIndex, hE, hent]
  · simp [withLog, Log.UpdateCommitIndex, hE, hent, hlog, h4.1, h4.2]
  · simp [Log.LastLogInfo, hE, hent, h4.1]
  · simp [Log.LastLogInfo, hE, hent, h4.2]

/-- Witness of C3 (amended): follower at term 2, request of term 3. -/
theorem AppendEntries_reconciliation_witness :
    ∃ s1 res, AppendEntries (followerWith 2 [entryAt 1 1, entryAt 2 1, entryAt 3 2] 0) 7
        (requestOf 3 3 1 0 [(entryAt 4 1).Entry]) = some (s1, res) ∧
      s1.log.entries = (followerWith 2 [entryAt 1 1, entryAt 2 1, entryAt 3 2] 0).log.entries ++
        [{ Entry := (entryAt 4 1).Entry }] ∧
      s1.log.entries.map (fun e => (e.Entry.Index, e.Entry.Term)) =
        [(1, 1), (2, 1), (3, 2), (4, 1)] ∧
      res.Success = true ∧ res.Index = 4 ∧ res.Term = 1 :=
  AppendEntries_reconciliation (followerWith 2 [entryAt 1 1, entryAt 2 1, entryAt 3 2] 0) 7
    (requestOf 3 3 1 0 [(entryAt 4 1).Entry]) (entryAt 4 1).Entry rfl (by decide) rfl rfl
    ⟨rfl, rfl⟩

/-- C3 as stated fails: the follower at term 2 with log `[(1,1),(2,1),(3,2)]`
answers `AppendEntries(term 3, prev_log_index = 3, prev_log_term = 1,
entries = [(4,1)])` with `success = true, index = 4` and keeps all of its
entries; it neither truncates to `[(1,1),(2,1)]` nor replies `success = false,
index = 2`. -/
theorem AppendEntries_reconciliation_counterexample :
    (followerWith 2 [entryAt 1 1, entryAt 2 1, entryAt 3 2] 0).currentTerm ≤
      (requestOf 3 3 1 0 [(entryAt 4 1).Entry]).Term ∧
    AppendEntries (followerWith 2 [entryAt 1 1, entryAt 2 1, entryAt 3 2] 0) 7
        (requestOf 3 3 1 0 [(entryAt 4 1).Entry]) =
      some (withLog (adopted (followerWith 2 [entryAt 1 1, entryAt 2 1, entryAt 3 2] 0) 7
                (requestOf 3 3 1 0 [(entryAt 4 1).Entry]))
              { entries := [entryAt 1 1, entryAt 2 1, entryAt 3 2, entryAt 4 1],
                commitIndex := 0 },
            { Term := 1, Success := true, Index := 4 }) ∧
    [entryAt 1 1, entryAt 2 1, entryAt 3 2, entryAt 4 1] ≠ [entryAt 1 1, entryAt 2 1] := by
  decide

/-- On a log with contiguous indices `1..m` the divergent-tail branch with
`1 <= prev_log_index < m` cuts the log to its first `prev_log_index` entries
and hands the request entries to the log's append. -/
theorem AppendEntries_contiguous_cut (s : server) (now : Int) (req : AppendEntriesReuqest)
    (hc : contiguous s.log.entries) (hterm : s.currentTerm ≤ req.Term)
    (h1 : 1 ≤ req.PreLogIndex) (h2 : req.PreLogIndex < s.log.entries.length) :
    AppendEntries s now req =
      some (withLog (adopted s now req)
          ((appendAll (cutLog s.log req.PreLogIndex) req.Entries).UpdateCommitIndex
            req.CommitIndex),
        { Term := (appendAll (cutLog s.log req.PreLogIndex) req.Entries).LastLogInfo.2,
          Success := true,
          Index := (appendAll (cutLog s.log req.PreLogIndex) req.Entries).LastLogInfo.1 }) := by
  have hlast := contiguous_lastIndex s.log hc
  obtain ⟨b, tail, hb, htail, hdisj, hyes, _⟩ :=
    AppendEntries_divergent s now req hterm (by omega)
  have htidx := contiguous_index hc htail
  have hbeq : b + 1 = req.PreLogIndex := by
    rcases hdisj with ⟨hfull, hall⟩ | ⟨hle, hall⟩
    · have h0 : 0 < s.log.entries.length := by omega
      have hget : s.log.entries[0]? = some (s.log.entries.get ⟨0, h0⟩) := by simp
      have := hall 0 _ hget
      have := contiguous_index hc hget
      omega
    · by_contra hne
      have hb1 : b + 1 < s.log.entries.length := by omega
      have hget : s.log.entries[b + 1]? = some (s.log.entries.get ⟨b + 1, hb1⟩) := by simp
      have := hall (b + 1) _ (by omega) hget
      have := contiguous_index hc hget
      omega
  rw [← hbeq]
  exact hyes (by omega)

/-- C4: on a log with contiguous indices `1..m`, every request with
`req.term >= current_term` and `1 <= prev_log_index < m` is answered with
`success = true`; when its entries carry the indices `prev_log_index + 1,
prev_log_index + 2, ...` (the requirement of the log's append, index
`= last_index + 1`), it leaves the log equal to its first `prev_log_index`
entries followed by the request entries in request order, every old entry
with index `> prev_log_index` being dropped. -/
theorem AppendEntries_divergent_tail (s : server) (now : Int) (req : AppendEntriesReuqest)
    (hc : contiguous s.log.entries) (hterm : s.currentTerm ≤ req.Term)
    (h1 : 1 ≤ req.PreLogIndex) (h2 : req.PreLogIndex < s.log.entries.length) :
    ∃ s1 res, AppendEntries s now req = some (s1, res) ∧
      res.Success = true ∧
      (sequentialFrom req.PreLogIndex req.Entries →
        s1.log.entries = s.log.entries.take req.PreLogIndex ++
          req.Entries.map (fun e => ({ Entry := e } : LogEntry))) := by
  refine ⟨_, _, AppendEntries_contiguous_cut s now req hc hterm h1 h2, rfl, ?_⟩
  intro hseq
  have hcut := cutLog_lastIndex s.log hc req.PreLogIndex (by omega)
  have hE := appendAll_entries (cutLog s.log req.PreLogIndex) req.Entries
    (by rw [hcut]; exact hseq)
  show (appendAll (cutLog s.log req.PreLogIndex) req.Entries).entries = _
  rw [hE]
  rfl

/-- Witness of C4: log `[(1,1),(2,1),(3,2)]`, `prev_log_index = 2`, entries
`[(3,3),(4,3)]`: the log becomes `[(1,1),(2,1),(3,3),(4,3)]`. -/
theorem AppendEntries_divergent_tail_witness :
    contiguous (followerWith 2 [entryAt 1 1, entryAt 2 1, entryAt 3 2] 0).log.entries ∧
    sequentialFrom 2 [(entryAt 3 3).Entry, (entryAt 4 3).Entry] ∧
    ∃ s1 res, AppendEntries (followerWith 2 [entryAt 1 1, entryAt 2 1, entryAt 3 2] 0) 7
        (requestOf 3 2 1 0 [(entryAt 3 3).Entry, (entryAt 4 3).Entry]) = some (s1, res) ∧
      res.Success = true ∧
      s1.log.entries =
        (followerWith 2 [entryAt 1 1, entryAt 2 1, entryAt 3 2] 0).log.entries.take 2 ++
          [(entryAt 3 3).Entry, (entryAt 4 3).Entry].map (fun e => ({ Entry := e } : LogEntry)) :=
  ⟨by decide, by decide,
   match AppendEntries_divergent_tail (followerWith 2 [entryAt 1 1, entryAt 2 1, entryAt 3 2] 0)
      7 (requestOf 3 2 1 0 [(entryAt 3 3).Entry, (entryAt 4 3).Entry]) (by decide) (by decide)
      (by decide) (by decide) with
   | ⟨s1, res, h, hs, hlog⟩ => ⟨s1, res, h, hs, hlog (by decide)⟩⟩

/-- C7: a request with `req.term < current_term` leaves the follower's role,
`current_term`, `current_leader`, `leader_accept_time`, log entries and
`commit_index` unchanged (the whole server state is unchanged). -/
theorem AppendEntries_stale_frame (s : server) (now : Int) (req : AppendEntriesReuqest)
    (h : req.Term < s.currentTerm) :
    ∃ s1 res, AppendEntries s now req = some (s1, res) ∧
      s1.state = s.state ∧ s1.currentTerm = s.currentTerm ∧
      s1.currentLeader = s.currentLeader ∧ s1.leaderAcceptTime = s.leaderAcceptTime ∧
      s1.log.entries = s.log.entries ∧ s1.log.commitIndex = s.log.commitIndex ∧ s1 = s :=
  ⟨s, _, AppendEntries_stale s now req h, rfl, rfl, rfl, rfl, rfl, rfl, rfl⟩

/-- Witness of C7: a candidate at term 5 receiving a request of term 4. -/
theorem AppendEntries_stale_frame_witness :
    ∃ s1 res, AppendEntries ((followerWith 5 [entryAt 1 1, entryAt 2 3] 1).SetState
        StateName.Candidate) 9 (requestOf 4 0 0 2 []) = some (s1, res) ∧
      s1.state = StateName.Candidate ∧ s1.currentTerm = 5 ∧
      s1.currentLeader = "" ∧ s1.leaderAcceptTime = 0 ∧
      s1.log.entries = [entryAt 1 1, entryAt 2 3] ∧ s1.log.commitIndex = 1 ∧
      s1 = (followerWith 5 [entryAt 1 1, entryAt 2 3] 1).SetState StateName.Candidate :=
  AppendEntries_stale_frame ((followerWith 5 [entryAt 1 1, entryAt 2 3] 1).SetState
    StateName.Candidate) 9 (requestOf 4 0 0 2 []) (by decide)

theorem LastLogInfo_congr {l1 l2 : Log} (h : l1.entries = l2.entries) :
    l1.LastLogInfo = l2.LastLogInfo := by
  simp [Log.LastLogInfo, h]

theorem LastLogInfo_UpdateCommitIndex (l : Log) (c : Nat) :
    (l.UpdateCommitIndex c).LastLogInfo = l.LastLogInfo := rfl

/-- The handler always returns.  Its reply carries the index and term of the
last entry of the log it leaves, the term it leaves is the larger of the old
term and the request's term, and the commit index moves only on success. -/
theorem AppendEntries_outcome (s : server) (now : Int) (req : AppendEntriesReuqest) :
    ∃ s1 res, AppendEntries s now req = some (s1, res) ∧
      res.Index = s1.log.LastLogInfo.1 ∧ res.Term = s1.log.LastLogInfo.2 ∧
      s1.currentTerm = max s.currentTerm req.Term ∧
      s1.log.commitIndex =
        (if res.Success then
          max s.log.commitIndex (min req.CommitIndex s1.log.LastLogInfo.1)
        else s.log.commitIndex) := by
  by_cases hterm : req.Term < s.currentTerm
  · exact ⟨_, _, AppendEntries_stale s now req hterm, rfl, rfl,
      (max_eq_left (by omega)).symm, by simp⟩
  have hterm2 : s.currentTerm ≤ req.Term := by omega
  have hmax : (adopted s now req).currentTerm = max s.currentTerm req.Term := by
    rw [max_eq_right hterm2]; rfl
  rcases Nat.lt_trichotomy s.log.LastLogInfo.1 req.PreLogIndex with hlt | heq | hgt
  · exact ⟨_, _, AppendEntries_behind s now req hterm2 hlt, rfl, rfl, hmax, by simp [adopted_log]⟩
  · exact ⟨_, _, AppendEntries_equal s now req hterm2 heq.symm, rfl, rfl, hmax, by
      simp [withLog, Log.UpdateCommitIndex, appendAll_commitIndex, Log.LastLogInfo]⟩
  · obtain ⟨b, tail, _, _, _, hyes, hno⟩ := AppendEntries_divergent s now req hterm2 hgt
    by_cases hidx : tail.Entry.Index = req.PreLogIndex
    · exact ⟨_, _, hyes hidx, rfl, rfl, hmax, by
        simp [withLog, cutLog, Log.UpdateCommitIndex, appendAll_commitIndex, Log.LastLogInfo]⟩
    · exact ⟨_, _, hno hidx, rfl, rfl, hmax, by simp [withLog, cutLog]⟩

theorem retryEntries_eq_filter (s : server) (res : AppendEntriesResponse) :
    retryEntries s res =
      (s.log.entries.filter (fun e => decide (res.Index < e.Entry.Index))).map
        (fun e => e.Entry) := by
  have key : ∀ (l : List LogEntry) (acc : List PbLogEntry),
      l.foldl (fun el e => if e.Entry.Index ≤ res.Index then el else el ++ [e.Entry]) acc =
        acc ++ (l.filter (fun e => decide (res.Index < e.Entry.Index))).map (fun e => e.Entry) := by
    intro l
    induction l with
    | nil => intro acc; simp
    | cons e l ih =>
      intro acc
      rw [List.foldl_cons, ih]
      by_cases h : e.Entry.Index ≤ res.Index
      · have h2 : ¬ res.Index < e.Entry.Index := by omega
        simp [h, h2]
      · have h2 : res.Index < e.Entry.Index := by omega
        simp [h, h2]
  simpa [retryEntries] using key s.log.entries []

/-- C5: one retry is sufficient.  When the leader's term is at least the
follower's and the follower answers the leader's first request with
`success = false`, the retry request built by `RequestAppendEntriesCli`
(`prev_log_index = reply.index`, `prev_log_term = reply.term`, entries = the
leader's entries with index `> reply.index` in log order) is answered by the
same follower with `success = true`, and a leader in the Leader state counts
the acknowledgement. -/
theorem retry_succeeds (s f f1 : server) (now1 now2 : Int) (entries : List PbLogEntry)
    (lindex lterm : Nat) (res1 : AppendEntriesResponse)
    (hterm : f.currentTerm ≤ s.currentTerm)
    (hfirst : AppendEntries f now1 (firstRequest s entries lindex lterm) = some (f1, res1))
    (hfail : res1.Success = false) :
    (retryRequest s res1).PreLogIndex = res1.Index ∧
    (retryRequest s res1).PreLogTerm = res1.Term ∧
    (retryRequest s res1).Entries =
      (s.log.entries.filter (fun e => decide (res1.Index < e.Entry.Index))).map
        (fun e => e.Entry) ∧
    ∃ f2 res2, AppendEntries f1 now2 (retryRequest s res1) = some (f2, res2) ∧
      res2.Success = true ∧
      (s.state = StateName.Leader →
        (RequestAppendEntriesCli s
            (followerLink f now1 now2 (firstRequest s entries lindex lterm))
            entries lindex lterm).appendEntryRespCnt = s.appendEntryRespCnt + 1) := by
  refine ⟨rfl, rfl, retryEntries_eq_filter s res1, ?_⟩
  obtain ⟨g1, r1, hev, hidx, _, hct, _⟩ :=
    AppendEntries_outcome f now1 (firstRequest s entries lindex lterm)
  rw [hfirst] at hev
  simp only [Option.some.injEq, Prod.mk.injEq] at hev
  obtain ⟨rfl, rfl⟩ := hev
  have hf1 : f1.currentTerm ≤ (retryRequest s res1).Term := by
    rw [hct]
    show max f.currentTerm s.currentTerm ≤ s.currentTerm
    rw [max_eq_right hterm]
  have hsecond := AppendEntries_equal f1 now2 (retryRequest s res1) hf1 hidx
  refine ⟨_, _, hsecond, rfl, ?_⟩
  intro hleader
  simp [RequestAppendEntriesCli, hleader, followerLink, hfirst, hfail, hsecond,
    server.IncrAppendEntryResp]

/-- Witness of C5: leader with log `[(1,1),(2,1),(3,1)]`, follower with
`[(1,1),(2,1),(3,1),(4,1)]`; the first request (`prev_log_index = 0`, no
entries) is answered with `success = false, index = 4`. -/
theorem retry_succeeds_witness :
    ∃ f2 res2, AppendEntries
        (withLog (adopted (followerWith 1 [entryAt 1 1, entryAt 2 1, entryAt 3 1, entryAt 4 1] 0)
            10 (firstRequest (leaderWith 2 [entryAt 1 1, entryAt 2 1, entryAt 3 1] 0) [] 0 0))
          { entries := [entryAt 1 1, entryAt 2 1, entryAt 3 1, entryAt 4 1], commitIndex := 0 })
        20
        (retryRequest (leaderWith 2 [entryAt 1 1, entryAt 2 1, entryAt 3 1] 0)
          { Term := 1, Success := false, Index := 4 }) = some (f2, res2) ∧
      res2.Success = true :=
  have h := retry_succeeds (leaderWith 2 [entryAt 1 1, entryAt 2 1, entryAt 3 1] 0)
    (followerWith 1 [entryAt 1 1, entryAt 2 1, entryAt 3 1, entryAt 4 1] 0)
    (withLog (adopted (followerWith 1 [entryAt 1 1, entryAt 2 1, entryAt 3 1, entryAt 4 1] 0)
        10 (firstRequest (leaderWith 2 [entryAt 1 1, entryAt 2 1, entryAt 3 1] 0) [] 0 0))
      { entries := [entryAt 1 1, entryAt 2 1, entryAt 3 1, entryAt 4 1], commitIndex := 0 })
    10 20 [] 0 0 { Term := 1, Success := false, Index := 4 } (by decide) (by decide) rfl
  match h.2.2.2 with
  | ⟨f2, res2, h1, h2, _⟩ => ⟨f2, res2, h1, h2⟩

theorem le_lastIndex_append (c : Nat) (l : Log) (es : List PbLogEntry)
    (h1 : c ≤ l.LastLogInfo.1) (h2 : ∀ e ∈ es, c ≤ e.Index) :
    c ≤ (appendAll l es).LastLogInfo.1 := by
  induction es generalizing l with
  | nil => exact h1
  | cons e es ih =>
    rw [appendAll_cons]
    apply ih
    · unfold Log.AppendEntry
      split
      · rw [Option.getD_some, LastLogInfo_concat]
        exact h2 e (List.mem_cons_self _ _)
      · exact h1
    · intro e2 he2
      exact h2 e2 (List.mem_cons_of_mem _ he2)

/-- C6 (amended): the handler never decreases `commit_index`; on success it is
`max(commit_index, min(req.commit_index, last_index))` for the last index of
the log that the call leaves, otherwise it is unchanged.  The state after the
call satisfies `commit_index <= last log index` exactly when the old
`commit_index` is at most the new last log index.  That is the case when the
request is stale, when the follower is behind (`prev_log_index` beyond its
last index), and, on a log with contiguous indices, when
`commit_index <= prev_log_index` and every request entry has an index
`>= commit_index`.  Nothing stops the divergent-tail branch from cutting the
log below `commit_index`. -/
theorem AppendEntries_commit_invariant (s : server) (now : Int) (req : AppendEntriesReuqest)
    (hinv : s.log.commitIndex ≤ s.log.LastLogInfo.1) :
    ∃ s1 res, AppendEntries s now req = some (s1, res) ∧
      s1.log.commitIndex =
        (if res.Success then
          max s.log.commitIndex (min req.CommitIndex s1.log.LastLogInfo.1)
        else s.log.commitIndex) ∧
      s.log.commitIndex ≤ s1.log.commitIndex ∧
      (s1.log.commitIndex ≤ s1.log.LastLogInfo.1 ↔
        s.log.commitIndex ≤ s1.log.LastLogInfo.1) ∧
      ((req.Term < s.currentTerm ∨ s.log.LastLogInfo.1 < req.PreLogIndex ∨
          (contiguous s.log.entries ∧ s.log.commitIndex ≤ req.PreLogIndex ∧
            ∀ e ∈ req.Entries, s.log.commitIndex ≤ e.Index)) →
        s1.log.commitIndex ≤ s1.log.LastLogInfo.1) := by
  obtain ⟨s1, res, hev, _, _, _, hci⟩ := AppendEntries_outcome s now req
  have hmono : s.log.commitIndex ≤ s1.log.commitIndex := by
    rw [hci]; split
    · exact le_max_left _ _
    · exact le_refl _
  have hiff : s1.log.commitIndex ≤ s1.log.LastLogInfo.1 ↔
      s.log.commitIndex ≤ s1.log.LastLogInfo.1 := by
    rw [hci]; split
    · constructor
      · intro h; exact le_trans (le_max_left _ _) h
      · intro h; exact max_le h (min_le_right _ _)
    · exact Iff.rfl
  refine ⟨s1, res, hev, hci, hmono, hiff, ?_⟩
  intro hcase
  rw [hiff]
  have hpin : ∀ x y, AppendEntries s now req = some (x, y) → s1 = x := by
    intro x y hxy
    rw [hev] at hxy
    simp only [Option.some.injEq, Prod.mk.injEq] at hxy
    exact hxy.1
  by_cases hterm : req.Term < s.currentTerm
  · rw [hpin _ _ (AppendEntries_stale s now req hterm)]; exact hinv
  have hterm2 : s.currentTerm ≤ req.Term := by omega
  rcases Nat.lt_trichotomy s.log.LastLogInfo.1 req.PreLogIndex with hlt | heq | hgt
  · rw [hpin _ _ (AppendEntries_behind s now req hterm2 hlt)]; exact hinv
  · rcases hcase with h | h | ⟨_, _, hents⟩
    · omega
    · omega
    · rw [hpin _ _ (AppendEntries_equal s now req hterm2 heq.symm)]
      exact le_lastIndex_append _ s.log req.Entries hinv hents
  · rcases hcase with h | h | ⟨hc, hpre, hents⟩
    · omega
    · omega
    · have hlen := contiguous_lastIndex s.log hc
      by_cases h0 : req.PreLogIndex = 0
      · omega
      · rw [hpin _ _ (AppendEntries_contiguous_cut s now req hc hterm2 (by omega) (by omega))]
        refine le_lastIndex_append _ (cutLog s.log req.PreLogIndex) req.Entries ?_ hents
        rw [cutLog_lastIndex s.log hc req.PreLogIndex (by omega)]
        exact hpre

/-- Witness of C6 (amended): follower with log `[(1,1),(2,1),(3,2)]` and
`commit_index = 2`, request with `prev_log_index = 2`, entries `[(3,3),(4,3)]`
and `commit_index = 4`: the log becomes `[(1,1),(2,1),(3,3),(4,3)]` and the
commit index 4. -/
theorem AppendEntries_commit_invariant_witness :
    (followerWith 2 [entryAt 1 1, entryAt 2 1, entryAt 3 2] 2).log.commitIndex ≤
      (followerWith 2 [entryAt 1 1, entryAt 2 1, entryAt 3 2] 2).log.LastLogInfo.1 ∧
    ∃ s1 res, AppendEntries (followerWith 2 [entryAt 1 1, entryAt 2 1, entryAt 3 2] 2) 7
        (requestOf 3 2 1 4 [(entryAt 3 3).Entry, (entryAt 4 3).Entry]) = some (s1, res) ∧
      s1.log.commitIndex ≤ s1.log.LastLogInfo.1 :=
  ⟨by decide,
   match AppendEntries_commit_invariant
      (followerWith 2 [entryAt 1 1, entryAt 2 1, entryAt 3 2] 2) 7
      (requestOf 3 2 1 4 [(entryAt 3 3).Entry, (entryAt 4 3).Entry]) (by decide) with
   | ⟨s1, res, h, _, _, _, himp⟩ =>
     ⟨s1, res, h, himp (Or.inr (Or.inr ⟨by decide, by decide, by decide⟩))⟩⟩

/-- C6 as stated fails: the follower with log `[(1,1),(2,1),(3,1)]` and
`commit_index = 3` satisfies the invariant; an empty request of its term with
`prev_log_index = 1` cuts the log to `[(1,1)]` and leaves `commit_index = 3`,
above the last log index 1. -/
theorem AppendEntries_commit_invariant_counterexample :
    (followerWith 1 [entryAt 1 1, entryAt 2 1, entryAt 3 1] 3).log.commitIndex ≤
      (followerWith 1 [entryAt 1 1, entryAt 2 1, entryAt 3 1] 3).log.LastLogInfo.1 ∧
    AppendEntries (followerWith 1 [entryAt 1 1, entryAt 2 1, entryAt 3 1] 3) 7
        (requestOf 1 1 1 0 []) =
      some (withLog (adopted (followerWith 1 [entryAt 1 1, entryAt 2 1, entryAt 3 1] 3) 7
                (requestOf 1 1 1 0 []))
              { entries := [entryAt 1 1], commitIndex := 3 },
            { Term := 1, Success := true, Index := 1 }) ∧
    ¬ ((3 : Nat) ≤ (Log.mk [entryAt 1 1] 3).LastLogInfo.1) := by
  decide

/-! ## Lemmas on the election round -/

theorem RequestVoteMe_frame (s : server) (key : String) (answer : Option RequestVoteResponse) :
    (Peer.RequestVoteMe s key answer).conf = s.conf ∧
    (Peer.RequestVoteMe s key answer).state = s.state ∧
    (Peer.RequestVoteMe s key answer).currentTerm = s.currentTerm ∧
    (Peer.RequestVoteMe s key answer).peers.length = s.peers.length ∧
    (Peer.RequestVoteMe s key answer).voteGrantedNum =
      s.voteGrantedNum + (if granted answer then 1 else 0) := by
  cases answer with
  | none => simp [Peer.RequestVoteMe, granted]
  | some res =>
    cases hg : res.VoteGranted <;>
      simp [Peer.RequestVoteMe, granted, hg, server.IncrVoteGrantedNum]

/-- The votes of one round: the fold over the peers adds one to
`voteGrantedNum` for each peer with another host that grants its vote. -/
theorem voteRound_spec (answers : String → Option RequestVoteResponse)
    (l : List (String × Peer)) (acc : server) :
    (l.foldl (fun acc kp =>
        if acc.conf.Host = kp.2.Host then acc
        else Peer.RequestVoteMe acc kp.1 (answers kp.1)) acc).conf = acc.conf ∧
    (l.foldl (fun acc kp =>
        if acc.conf.Host = kp.2.Host then acc
        else Peer.RequestVoteMe acc kp.1 (answers kp.1)) acc).state = acc.state ∧
    (l.foldl (fun acc kp =>
        if acc.conf.Host = kp.2.Host then acc
        else Peer.RequestVoteMe acc kp.1 (answers kp.1)) acc).currentTerm = acc.currentTerm ∧
    (l.foldl (fun acc kp =>
        if acc.conf.Host = kp.2.Host then acc
        else Peer.RequestVoteMe acc kp.1 (answers kp.1)) acc).peers.length = acc.peers.length ∧
    (l.foldl (fun acc kp =>
        if acc.conf.Host = kp.2.Host then acc
        else Peer.RequestVoteMe acc kp.1 (answers kp.1)) acc).voteGrantedNum =
      acc.voteGrantedNum +
        ((l.filter (fun kp => decide (acc.conf.Host ≠ kp.2.Host) &&
          granted (answers kp.1))).length : Int) := by
  induction l generalizing acc with
  | nil => simp
  | cons kp l ih =>
    rw [List.foldl_cons]
    by_cases hhost : acc.conf.Host = kp.2.Host
    · rw [if_pos hhost]
      obtain ⟨h1, h2, h3, h4, h5⟩ := ih acc
      refine ⟨h1, h2, h3, h4, ?_⟩
      rw [h5]
      simp [List.filter_cons, hhost]
    · rw [if_neg hhost]
      obtain ⟨f1, f2, f3, f4, f5⟩ := RequestVoteMe_frame acc kp.1 (answers kp.1)
      obtain ⟨h1, h2, h3, h4, h5⟩ := ih (Peer.RequestVoteMe acc kp.1 (answers kp.1))
      refine ⟨h1.trans f1, h2.trans f2, h3.trans f3, h4.trans f4, ?_⟩
      rw [h5, f5, f1]
      cases hg : granted (answers kp.1)
      · simp [List.filter_cons, hhost, hg]
      · simp [List.filter_cons, hhost, hg]
        omega

theorem VoteForSelf_spec (s : server) (hself : selfRegistered s) :
    ∃ s2, s.VoteForSelf = some s2 ∧ s2.conf = s.conf ∧ s2.state = s.state ∧
      s2.currentTerm = s.currentTerm ∧ s2.voteGrantedNum = 1 ∧
      s2.peers.length = s.peers.length ∧
      ∀ (answers : String → Option RequestVoteResponse),
        (s2.peers.filter (fun kp => decide (s.conf.Host ≠ kp.2.Host) &&
            granted (answers kp.1))).length =
          (s.peers.filter (fun kp => decide (s.conf.Host ≠ kp.2.Host) &&
            granted (answers kp.1))).length := by
  have hany : s.peers.any (fun kp => kp.1 == s.conf.Host) = true := by
    obtain ⟨p, hp⟩ := hself
    simp only [List.any_eq_true, beq_iff_eq]
    exact ⟨_, hp, rfl⟩
  refine ⟨{ s with
      voteGrantedNum := 1
      peers := s.peers.map (fun kp =>
        if kp.1 = s.conf.Host then
          (kp.1, kp.2.SetVoteRequestState VoteRequestState.VoteGranted)
        else kp) }, by rw [server.VoteForSelf, if_pos hany], rfl, rfl, rfl, rfl, by simp, ?_⟩
  intro answers
  simp only [List.filter_map, List.length_map]
  congr 1
  apply List.filter_congr
  intro kp _
  simp only [Function.comp]
  split <;> rfl

theorem candidateTick_spec (s : server) (answers : String → Option RequestVoteResponse)
    (hstate : s.state = StateName.Candidate) (hself : selfRegistered s) :
    ∃ s3, s3.conf = s.conf ∧ s3.state = StateName.Candidate ∧
      s3.currentTerm = (s.currentTerm + 1) % 2 ^ 64 ∧
      s3.peers.length = s.peers.length ∧
      s3.voteGrantedNum = 1 + (grantCount s answers : Int) ∧
      candidateTick s answers =
        if s3.voteGrantedNum ≥ s3.QuorumSize then some (s3.SetState StateName.Leader)
        else some s3 := by
  have hself1 : selfRegistered { s with currentTerm := (s.currentTerm + 1) % 2 ^ 64 } := hself
  obtain ⟨s2, hv, c1, c2, c3, c4, c5, c6⟩ := VoteForSelf_spec _ hself1
  obtain ⟨h1, h2, h3, h4, h5⟩ := voteRound_spec answers s2.peers s2
  refine ⟨_, h1.trans c1, (h2.trans c2).trans hstate, h3.trans c3, (h4.trans c5), ?_, ?_⟩
  · rw [h5, c4, c1]
    have := c6 answers
    simp only [] at this
    rw [this]
    rfl
  · have hne : ¬ (s.state ≠ StateName.Candidate) := by simp [hstate]
    simp only [candidateTick, hne, if_false, hv, server.VoteGrantedNum]

/-- C9: in a cluster of `n` peers (the local node included) a candidate round
in which `g` of the other peers grant their vote ends in the Leader state if
and only if `1 + g >= floor(n/2) + 1` (`QuorumSize`), and otherwise stays in
the Candidate state; a cluster of 1 becomes Leader after one round, with
quorum 1. -/
theorem candidateTick_election (s : server) (answers : String → Option RequestVoteResponse)
    (hstate : s.state = StateName.Candidate) (hself : selfRegistered s) :
    ∃ s1, candidateTick s answers = some s1 ∧
      s1.voteGrantedNum = 1 + (grantCount s answers : Int) ∧
      s1.QuorumSize = ((s.peers.length / 2 + 1 : Nat) : Int) ∧
      (s1.state = StateName.Leader ↔ 1 + grantCount s answers ≥ s.peers.length / 2 + 1) ∧
      (¬ (1 + grantCount s answers ≥ s.peers.length / 2 + 1) →
        s1.state = StateName.Candidate) ∧
      (s.peers.length = 1 → s1.state = StateName.Leader ∧ s1.QuorumSize = 1) := by
  obtain ⟨s3, _, hst, _, hlen, hvotes, hev⟩ := candidateTick_spec s answers hstate hself
  have hq : s3.QuorumSize = ((s.peers.length / 2 + 1 : Nat) : Int) := by
    unfold server.QuorumSize
    rw [hlen]
    omega
  by_cases hwin : 1 + grantCount s answers ≥ s.peers.length / 2 + 1
  · have hge : s3.voteGrantedNum ≥ s3.QuorumSize := by rw [hq, hvotes]; omega
    rw [if_pos hge] at hev
    refine ⟨_, hev, hvotes, hq, ⟨fun _ => hwin, fun _ => rfl⟩, fun h => absurd hwin h, ?_⟩
    intro h1
    refine ⟨rfl, ?_⟩
    show s3.QuorumSize = 1
    rw [hq, h1]
    rfl
  · have hlt : ¬ (s3.voteGrantedNum ≥ s3.QuorumSize) := by rw [hq, hvotes]; omega
    rw [if_neg hlt] at hev
    refine ⟨_, hev, hvotes, hq, ⟨fun h => ?_, fun h => absurd h hwin⟩, fun _ => hst, ?_⟩
    · rw [hst] at h; cases h
    · intro h1
      rw [h1] at hwin
      omega

/-- Witness of C9: the single-node cluster `h:1` becomes Leader after one
round. -/
theorem candidateTick_election_witness :
    ∃ s1, candidateTick (loneCandidate 3) (fun _ => none) = some s1 ∧
      s1.state = StateName.Leader ∧ s1.QuorumSize = 1 :=
  match candidateTick_election (loneCandidate 3) (fun _ => none) rfl (by decide) with
  | ⟨s1, h, _, _, _, _, hone⟩ => ⟨s1, h, hone rfl⟩

/-! ## Lemmas on the heartbeat round -/

/-- The client changes nothing but the acknowledgement counter, which a leader
increments exactly when the peer acknowledges. -/
theorem RequestAppendEntriesCli_spec (s : server) (link : Link) (entries : List PbLogEntry)
    (lindex lterm : Nat) :
    RequestAppendEntriesCli s link entries lindex lterm =
      { s with appendEntryRespCnt := s.appendEntryRespCnt +
          (if s.state = StateName.Leader ∧
              acknowledges s link (firstRequest s entries lindex lterm) = true
            then 1 else 0) } := by
  obtain ⟨name, state, currentLeader, currentTerm, log, conf, peers, voteGrantedNum,
    votedForTerm, leaderAcceptTime, heartbeatInterval, appendEntryRespCnt⟩ := s
  unfold RequestAppendEntriesCli acknowledges
  by_cases hst : state = StateName.Leader
  · subst hst
    cases hd : link.dial
    · simp [hd]
    · cases h1 : link.first (firstRequest ⟨name, StateName.Leader, currentLeader, currentTerm, log, conf,
          peers, voteGrantedNum, votedForTerm, leaderAcceptTime, heartbeatInterval,
          appendEntryRespCnt⟩ entries lindex lterm) with
      | none => simp [hd, h1]
      | some res =>
        cases hs : res.Success
        · cases h2 : link.second (retryRequest ⟨name, StateName.Leader, currentLeader, currentTerm, log,
              conf, peers, voteGrantedNum, votedForTerm, leaderAcceptTime, heartbeatInterval,
              appendEntryRespCnt⟩ res) with
          | none => simp [hd, h1, hs, h2]
          | some res2 =>
            cases hs2 : res2.Success <;>
              simp [hd, h1, hs, h2, hs2, server.IncrAppendEntryResp]
        · simp [hd, h1, hs, server.IncrAppendEntryResp]
  · simp [hst]

/-- The heartbeat round of a leader counts the local node and every peer with
another host that acknowledges, and changes nothing else. -/
theorem heartbeatFold_spec (s : server) (net : String → Link)
    (hstate : s.state = StateName.Leader) (l : List (String × Peer)) (c : Int) :
    l.foldl (fun acc kp =>
        if acc.conf.Host = kp.2.Host then acc
        else Peer.RequestAppendEntries acc (net kp.2.Host) [] 0 0)
        { s with appendEntryRespCnt := c } =
      { s with appendEntryRespCnt := c +
          ((l.filter (fun kp => decide (s.conf.Host ≠ kp.2.Host) &&
            acknowledges s (net kp.2.Host) (firstRequest s [] 0 0))).length : Int) } := by
  induction l generalizing c with
  | nil => simp
  | cons kp l ih =>
    rw [List.foldl_cons]
    by_cases hhost : s.conf.Host = kp.2.Host
    · have hstep : (if ({ s with appendEntryRespCnt := c } : server).conf.Host = kp.2.Host then
            ({ s with appendEntryRespCnt := c } : server)
          else Peer.RequestAppendEntries { s with appendEntryRespCnt := c }
            (net kp.2.Host) [] 0 0) = { s with appendEntryRespCnt := c } := if_pos hhost
      rw [hstep, ih c]
      simp [List.filter_cons, hhost]
    · have hack : acknowledges { s with appendEntryRespCnt := c } (net kp.2.Host)
            (firstRequest { s with appendEntryRespCnt := c } [] 0 0) =
          acknowledges s (net kp.2.Host) (firstRequest s [] 0 0) := rfl
      have hstep : (if ({ s with appendEntryRespCnt := c } : server).conf.Host = kp.2.Host then
            ({ s with appendEntryRespCnt := c } : server)
          else Peer.RequestAppendEntries { s with appendEntryRespCnt := c }
            (net kp.2.Host) [] 0 0) =
          { s with appendEntryRespCnt := c +
              (if acknowledges s (net kp.2.Host) (firstRequest s [] 0 0) = true
                then 1 else 0) } := by
        rw [if_neg hhost, Peer.RequestAppendEntries, RequestAppendEntriesCli_spec, hack]
        simp [hstate]
      rw [hstep, ih]
      cases hk : acknowledges s (net kp.2.Host) (firstRequest s [] 0 0)
      · simp [List.filter_cons, hhost, hk]
      · simp [List.filter_cons, hhost, hk]
        omega

theorem heartbeatRound_spec (s : server) (net : String → Link)
    (hstate : s.state = StateName.Leader) :
    heartbeatRound s net = { s with appendEntryRespCnt := 1 + (ackCount s net : Int) } :=
  heartbeatFold_spec s net hstate s.peers 1

theorem acknowledges_silent (s : server) (link : Link) (req : AppendEntriesReuqest)
    (h : silent link) : acknowledges s link req = false := by
  unfold acknowledges
  cases hd : link.dial
  · rfl
  · have hs := h hd
    cases h1 : link.first req with
    | none => rfl
    | some res =>
      have hf := hs req res (Or.inl h1)
      cases h2 : link.second (retryRequest s res) with
      | none => simp [hf, h2]
      | some res2 =>
        have hf2 := hs _ res2 (Or.inr h2)
        simp [hf, h2, hf2]

/-- C10: a Leader in a cluster of `n >= 2` peers, on a heartbeat tick with
`now_ms - leader_accept_time > heartbeat_interval_ms`, counts itself and the
acknowledging peers.  When no peer acknowledges, `append_entry_resp_cnt` is
`1 < QuorumSize` and the state becomes Candidate; when at least
`QuorumSize - 1` peers acknowledge, the state stays Leader. -/
theorem leaderTick_heartbeat (s : server) (now : Int) (net : String → Link)
    (hstate : s.state = StateName.Leader) (hn : 2 ≤ s.peers.length)
    (hdue : now - s.leaderAcceptTime > s.heartbeatInterval) :
    (leaderTick s now net).appendEntryRespCnt = 1 + (ackCount s net : Int) ∧
    ((∀ kp ∈ s.peers, s.conf.Host ≠ kp.2.Host → silent (net kp.2.Host)) →
      (leaderTick s now net).appendEntryRespCnt = 1 ∧ 1 < s.QuorumSize ∧
      (leaderTick s now net).state = StateName.Candidate) ∧
    (s.QuorumSize - 1 ≤ (ackCount s net : Int) →
      (leaderTick s now net).state = StateName.Leader) ∧
    ((ackCount s net : Int) < s.QuorumSize - 1 →
      (leaderTick s now net).state = StateName.Candidate) := by
  have hne : ¬ (s.state ≠ StateName.Leader) := by simp [hstate]
  have hround := heartbeatRound_spec s net hstate
  have hq : (2 : Int) ≤ s.QuorumSize := by
    unfold server.QuorumSize
    omega
  have hcan : (heartbeatRound s net).CanCommitLog =
      decide (1 + (ackCount s net : Int) ≥ s.QuorumSize) := by
    rw [hround]; rfl
  have hcnt : (leaderTick s now net).appendEntryRespCnt = 1 + (ackCount s net : Int) := by
    simp only [leaderTick, hne, if_false, hdue, if_true]
    split
    · rw [hround]; rfl
    · rw [hround]
  have hlose : (ackCount s net : Int) < s.QuorumSize - 1 →
      (leaderTick s now net).state = StateName.Candidate := by
    intro hlt
    have hfalse : (heartbeatRound s net).CanCommitLog = false := by
      rw [hcan]; exact decide_eq_false (by omega)
    simp only [leaderTick, hne, if_false, hdue, if_true, hfalse]
    rfl
  refine ⟨hcnt, ?_, ?_, hlose⟩
  · intro hsilent
    have hzero : ackCount s net = 0 := by
      unfold ackCount
      rw [List.length_eq_zero, List.filter_eq_nil_iff]
      intro kp hkp
      by_cases hhost : s.conf.Host = kp.2.Host
      · simp [hhost]
      · simp [hhost, acknowledges_silent s _ _ (hsilent kp hkp hhost)]
    refine ⟨by rw [hcnt, hzero]; rfl, by omega, hlose (by rw [hzero]; omega)⟩
  · intro hge
    have htrue : (heartbeatRound s net).CanCommitLog = true := by
      rw [hcan]; exact decide_eq_true (by omega)
    simp only [leaderTick, hne, if_false, hdue, if_true, htrue]
    rw [hround]
    exact hstate

/-- Witness of C10: the leader `l:1` of the three-node cluster, cut off from
both peers, counts 1 acknowledgement against a quorum of 2 and becomes
Candidate. -/
theorem leaderTick_heartbeat_witness :
    (leaderTick (leaderWith 2 [entryAt 1 2] 1) 5000 (fun _ => deadLink)).appendEntryRespCnt = 1 ∧
    1 < (leaderWith 2 [entryAt 1 2] 1).QuorumSize ∧
    (leaderTick (leaderWith 2 [entryAt 1 2] 1) 5000 (fun _ => deadLink)).state =
      StateName.Candidate :=
  (leaderTick_heartbeat (leaderWith 2 [entryAt 1 2] 1) 5000 (fun _ => deadLink) rfl
    (by decide) (by decide)).2.1 (fun _ _ _ hdial => absurd hdial (by decide))

/-! ## current_term over the steps of a server -/

theorem leaderTick_currentTerm (s : server) (now : Int) (net : String → Link) :
    (leaderTick s now net).currentTerm = s.currentTerm := by
  unfold leaderTick
  by_cases hst : s.state = StateName.Leader
  · have hne : ¬ (s.state ≠ StateName.Leader) := by simp [hst]
    simp only [hne, if_false]
    split
    · split
      · rw [heartbeatRound_spec s net hst]; rfl
      · rw [heartbeatRound_spec s net hst]
    · rfl
  · simp [hst]

/-- C8 (amended): `current_term` never decreases except through the `uint64`
wrap of `currentTerm += 1` at `2^64 - 1`.  For every server state and every
step among the AppendEntries handler on any request, the follower timer tick,
the candidate timer tick and the leader heartbeat tick, `current_term` after
the step is `>= current_term` before it, provided `current_term + 1 < 2^64`
whenever the step is a timer tick that increments the term (the tick of a
follower whose leader is overdue, the tick of a candidate).  In the handler it
becomes `max(old current_term, req.term)` and in the leader heartbeat tick it
is unchanged, whatever the old term.  A server with an entry for itself in its
peers map completes every step. -/
theorem currentTerm_monotone (s : server) (st : Step)
    (hwrap : bumpsTerm s st = true → s.currentTerm + 1 < 2 ^ 64) :
    (∀ s1, step s st = some s1 →
      s.currentTerm ≤ s1.currentTerm ∧
      (∀ now req, st = Step.appendEntries now req →
        s1.currentTerm = max s.currentTerm req.Term) ∧
      (∀ now net, st = Step.leaderHeartbeat now net → s1.currentTerm = s.currentTerm)) ∧
    (selfRegistered s → ∃ s1, step s st = some s1) := by
  cases st with
  | appendEntries now req =>
    obtain ⟨s1, res, hev, _, _, hct, _⟩ := AppendEntries_outcome s now req
    refine ⟨?_, fun _ => ⟨s1, by simp [step, hev]⟩⟩
    intro s2 hs2
    simp only [step, hev, Option.map_some', Option.some.injEq] at hs2
    subst hs2
    refine ⟨by rw [hct]; exact le_max_left _ _, ?_, fun _ _ h => (by cases h)⟩
    intro now2 req2 heq
    cases heq
    exact hct
  | followerTimer now =>
    refine ⟨?_, fun _ => ⟨_, rfl⟩⟩
    intro s1 hs1
    simp only [step, Option.some.injEq] at hs1
    subst hs1
    refine ⟨?_, fun _ _ h => (by cases h), fun _ _ h => (by cases h)⟩
    unfold followerTick
    split
    · exact le_refl _
    · rename_i hst
      split
      · rename_i hdue
        have hbump : bumpsTerm s (Step.followerTimer now) = true := by
          simp only [bumpsTerm, decide_eq_true_eq]
          exact ⟨not_not.mp hst, hdue⟩
        show s.currentTerm ≤ (s.currentTerm + 1) % 2 ^ 64
        rw [Nat.mod_eq_of_lt (hwrap hbump)]; omega
      · exact le_refl _
  | candidateTimer answers =>
    constructor
    · intro s1 hs1
      refine ⟨?_, fun _ _ h => (by cases h), fun _ _ h => (by cases h)⟩
      simp only [step] at hs1
      by_cases hst : s.state = StateName.Candidate
      · have hbump : bumpsTerm s (Step.candidateTimer answers) = true := by
          simp only [bumpsTerm, decide_eq_true_eq]
          exact hst
        have hmod : (s.currentTerm + 1) % 2 ^ 64 = s.currentTerm + 1 :=
          Nat.mod_eq_of_lt (hwrap hbump)
        by_cases hself : selfRegistered s
        · obtain ⟨s3, _, _, hterm, _, _, hev⟩ := candidateTick_spec s answers hst hself
          rw [hev] at hs1
          have : s1.currentTerm = s3.currentTerm := by
            split at hs1 <;>
              (simp only [Option.some.injEq] at hs1; subst hs1; rfl)
          rw [this, hterm, hmod]; omega
        · exfalso
          have hany : ¬ (s.peers.any (fun kp => kp.1 == s.conf.Host) = true) := by
            intro h
            apply hself
            simp only [List.any_eq_true, beq_iff_eq] at h
            obtain ⟨kp, hmem, hk⟩ := h
            exact ⟨kp.2, by rw [← hk]; exact hmem⟩
          have hne : ¬ (s.state ≠ StateName.Candidate) := by simp [hst]
          simp [candidateTick, hne, server.VoteForSelf, hany] at hs1
      · have hne : s.state ≠ StateName.Candidate := hst
        rw [candidateTick, if_pos hne] at hs1
        simp only [Option.some.injEq] at hs1
        subst hs1
        exact le_refl _
    · intro hself
      by_cases hst : s.state = StateName.Candidate
      · obtain ⟨s3, _, _, _, _, _, hev⟩ := candidateTick_spec s answers hst hself
        simp only [step]
        rw [hev]
        split
        · exact ⟨_, rfl⟩
        · exact ⟨_, rfl⟩
      · have hne : s.state ≠ StateName.Candidate := hst
        exact ⟨s, by simp [step, candidateTick, hne]⟩
  | leaderHeartbeat now net =>
    refine ⟨?_, fun _ => ⟨_, rfl⟩⟩
    intro s1 hs1
    simp only [step, Option.some.injEq] at hs1
    subst hs1
    refine ⟨by rw [leaderTick_currentTerm], fun _ _ h => (by cases h), ?_⟩
    intro _ _ _
    exact leaderTick_currentTerm s now net

/-- Witness of C8 (amended): the follower at term 5 whose leader has been
silent for 5000 ms moves to term 6, and the handler at the largest term
`2^64 - 1` keeps that term on a request of term 7. -/
theorem currentTerm_monotone_witness :
    (bumpsTerm (followerWith 5 [entryAt 1 1] 0) (Step.followerTimer 5000) = true ∧
      (5 : Nat) + 1 < 2 ^ 64 ∧
      ∃ s1, step (followerWith 5 [entryAt 1 1] 0) (Step.followerTimer 5000) = some s1 ∧
        (followerWith 5 [entryAt 1 1] 0).currentTerm ≤ s1.currentTerm) ∧
    (bumpsTerm (followerWith 18446744073709551615 [] 0)
        (Step.appendEntries 9 (requestOf 7 0 0 0 [])) = false ∧
      ∃ s1, step (followerWith 18446744073709551615 [] 0)
          (Step.appendEntries 9 (requestOf 7 0 0 0 [])) = some s1 ∧
        s1.currentTerm = max 18446744073709551615 7) :=
  ⟨⟨by decide, by decide,
     match (currentTerm_monotone (followerWith 5 [entryAt 1 1] 0) (Step.followerTimer 5000)
        (fun _ => by decide)).2 (by decide) with
     | ⟨s1, h⟩ =>
       ⟨s1, h, ((currentTerm_monotone (followerWith 5 [entryAt 1 1] 0)
          (Step.followerTimer 5000) (fun _ => by decide)).1 s1 h).1⟩⟩,
   ⟨rfl,
     match (currentTerm_monotone (followerWith 18446744073709551615 [] 0)
        (Step.appendEntries 9 (requestOf 7 0 0 0 [])) (fun h => by cases h)).2 (by decide) with
     | ⟨s1, h⟩ =>
       ⟨s1, h, ((currentTerm_monotone (followerWith 18446744073709551615 [] 0)
          (Step.appendEntries 9 (requestOf 7 0 0 0 [])) (fun h => by cases h)).1 s1 h).2.1
            9 (requestOf 7 0 0 0 []) rfl⟩⟩⟩

/-- C8 as stated fails: the follower at term `2^64 - 1` (a term that one
AppendEntries request installs) whose leader has been silent for 5000 ms
becomes a candidate at term 0. -/
theorem currentTerm_monotone_counterexample :
    (step (followerWith 18446744073709551615 [] 0) (Step.followerTimer 5000)).map
        (fun s1 => (s1.state, s1.currentTerm)) = some (StateName.Candidate, 0) ∧
    ¬ ((followerWith 18446744073709551615 [] 0).currentTerm ≤ 0) := by
  decide

/-! ## Index safety of the handler -/

theorem scanReads_lt (entries : List LogEntry) (pre : Nat) (n : Nat) :
    ∀ i ∈ scanReads entries pre n, i < n := by
  induction n with
  | zero => intro i hi; simp [scanReads] at hi
  | succ k ih =>
    intro i hi
    rw [scanReads, List.mem_cons] at hi
    rcases hi with heq | hmem
    · omega
    · have hsub : i ∈ scanReads entries pre k := by
        cases hget : entries[k]? with
        | none => rw [hget] at hmem; simp at hmem
        | some e =>
          rw [hget] at hmem
          by_cases hle : e.Entry.Index ≤ pre
          · simp [hle] at hmem
          · simpa [hle] using hmem
      have := ih i hsub
      omega

/-- C11: the handler never reads or slices `log.entries` out of range.  For
every follower state and every request the call returns (a panic is the result
`none`), and every position read by the backward scan lies inside the log.
Whenever the branch `req.prev_log_index < last index` is taken, the log is
non-empty and the scan ends with `0 <= backindex < len(entries)`, so that the
slice `entries[0:backindex+1]` and the read `entries[backindex]` of the cut
log are in range.  The assumption that every index is `>= 1` is not needed. -/
theorem AppendEntries_index_safety (s : server) (now : Int) (req : AppendEntriesReuqest) :
    (∃ s1 res, AppendEntries s now req = some (s1, res)) ∧
    (∀ i ∈ scanReads s.log.entries req.PreLogIndex s.log.entries.length,
      i < s.log.entries.length) ∧
    (s.currentTerm ≤ req.Term → req.PreLogIndex < s.log.LastLogInfo.1 →
      s.log.entries ≠ [] ∧
      ∃ b : Nat,
        scanBack s.log.entries req.PreLogIndex ((s.log.entries.length : Int) - 1)
          s.log.entries.length = some (b : Int) ∧
        b < s.log.entries.length ∧ b + 1 ≤ s.log.entries.length ∧
        (∃ tail, (s.log.entries.take (b + 1))[b]? = some tail) ∧
        ∃ r, divergentTail (adopted s now req) req
          { Term := 0, Success := false, Index := 0 } = some r) := by
  refine ⟨?_, scanReads_lt _ _ _, ?_⟩
  · obtain ⟨s1, res, hev, _⟩ := AppendEntries_outcome s now req
    exact ⟨s1, res, hev⟩
  · intro _ hlt
    have hne : s.log.entries ≠ [] := entries_ne_nil_of_lastIndex_pos s.log (by omega)
    have hlen : 0 < s.log.entries.length := List.length_pos.mpr hne
    have hdiv : ∃ r, divergentTail (adopted s now req) req
        { Term := 0, Success := false, Index := 0 } = some r := by
      obtain ⟨b, tail, _, _, _, heq⟩ :=
        divergentTail_spec (adopted s now req) req { Term := 0, Success := false, Index := 0 } hne
      rw [heq]
      split
      · exact ⟨_, rfl⟩
      · exact ⟨_, rfl⟩
    have hread : ∀ b : Nat, b < s.log.entries.length →
        ∃ tail, (s.log.entries.take (b + 1))[b]? = some tail := by
      intro b hb
      refine ⟨s.log.entries.get ⟨b, hb⟩, ?_⟩
      rw [List.getElem?_take_of_lt (by omega)]
      simp
    refine ⟨hne, ?_⟩
    rcases scanBack_spec s.log.entries req.PreLogIndex ((s.log.entries.length : Int) - 1)
        s.log.entries.length (le_refl _) with ⟨h1, _⟩ | ⟨i, e, hi, _, _, hs, _⟩
    · have hcast : ((s.log.entries.length : Int) - 1) =
          ((s.log.entries.length - 1 : Nat) : Int) := by omega
      have hb : s.log.entries.length - 1 < s.log.entries.length := by omega
      exact ⟨s.log.entries.length - 1, by rw [h1, hcast], hb, by omega, hread _ hb, hdiv⟩
    · exact ⟨i, hs, hi, by omega, hread i hi, hdiv⟩

/-- Witness of C11: follower with log `[(1,1),(2,1),(3,2)]`, request of its
term with `prev_log_index = 2`: the branch is taken, the scan reads positions
2 and 1 and ends with `backindex = 1`. -/
theorem AppendEntries_index_safety_witness :
    scanReads [entryAt 1 1, entryAt 2 1, entryAt 3 2] 2 3 = [2, 1] ∧
    scanBack [entryAt 1 1, entryAt 2 1, entryAt 3 2] 2 2 3 = some 1 ∧
    (followerWith 2 [entryAt 1 1, entryAt 2 1, entryAt 3 2] 0).log.entries ≠ [] ∧
    ∃ b : Nat,
      scanBack (followerWith 2 [entryAt 1 1, entryAt 2 1, entryAt 3 2] 0).log.entries
        (requestOf 2 2 1 0 []).PreLogIndex
        (((followerWith 2 [entryAt 1 1, entryAt 2 1, entryAt 3 2] 0).log.entries.length : Int) - 1)
        (followerWith 2 [entryAt 1 1, entryAt 2 1, entryAt 3 2] 0).log.entries.length =
          some (b : Int) ∧
      b < (followerWith 2 [entryAt 1 1, entryAt 2 1, entryAt 3 2] 0).log.entries.length :=
  match (AppendEntries_index_safety (followerWith 2 [entryAt 1 1, entryAt 2 1, entryAt 3 2] 0) 7
      (requestOf 2 2 1 0 [])).2.2 (by decide) (by decide) with
  | ⟨hne, b, hscan, hb, _⟩ => ⟨by decide, by decide, hne, b, hscan, hb⟩

end Raft
